import Mathlib

/-!
Verification development for the `fqdn-builder` domain crawler
(`domain_crawler.py`).

The Python source is shallowly embedded as executable Lean definitions.
Strings are modelled as `List Char` (Python `str`), with `String` wrappers
at the top level.  Python's standard-library URL helpers (`urllib.parse.urlparse`,
`parse_qs`, `unquote_plus`) are modelled faithfully to CPython semantics at the
character level, with the following documented restrictions:

* `str.lower()` is modelled on ASCII letters only (all inputs appearing in the
  theorems below are ASCII; the domain regex of the program accepts only ASCII).
* percent-decoding (`unquote`) is modelled for single-byte ASCII escapes
  (`%XX` with `XX` two hex digits, code point < 0x80); multi-byte UTF-8
  escape sequences are outside the scope of every theorem below, which either
  use ASCII-only concrete inputs or carry a `no '%' in the query` hypothesis.
* the floating-point similarity ratio `matches / max_len >= threshold` of
  `is_similar_url` is modelled as the exact rational comparison
  `matches * thDen >= thNum * max_len`, with the Python default threshold
  `0.8` rendered as the fraction `4/5`.  No theorem below depends on
  floating-point rounding behaviour.
* the external collaborators (Playwright page rendering, `urljoin`, DNS
  resolver, the filesystem) are modelled as explicit oracle parameters.
-/

namespace Crawler

/-! ## Python string primitives, on `List Char` -/

/-- ASCII `str.lower()` on a single character. -/
def lowerChar (c : Char) : Char :=
  if 65 ≤ c.toNat ∧ c.toNat ≤ 90 then Char.ofNat (c.toNat + 32) else c

/-- ASCII `str.lower()`. -/
def lowerStr (l : List Char) : List Char := l.map lowerChar

/-- Python whitespace recognised by `str.strip()` (ASCII part). -/
def isPySpace (c : Char) : Bool :=
  c == ' ' || c == '\t' || c == '\n' || c == '\r' || c == '\x0b' || c == '\x0c'

/-- Python `str.strip()` (both ends). -/
def pyStrip (l : List Char) : List Char :=
  ((l.dropWhile isPySpace).reverse.dropWhile isPySpace).reverse

/-- Python `str.rstrip('/')`. -/
def rstripSlash (l : List Char) : List Char :=
  (l.reverse.dropWhile (fun c => c == '/')).reverse

/-- Python `s.split(c, 1)`: split at the first occurrence of `c`, if any. -/
def splitFirstChar (c : Char) : List Char → Option (List Char × List Char)
  | [] => none
  | a :: rest =>
    if a == c then some ([], rest)
    else (splitFirstChar c rest).map (fun p => (a :: p.1, p.2))

/-- Python `s.split(c)` (all occurrences; `''.split(c) = ['']`). -/
def splitAllChar (c : Char) : List Char → List (List Char)
  | [] => [[]]
  | a :: rest =>
    let r := splitAllChar c rest
    if a == c then [] :: r
    else
      match r with
      | h :: t => (a :: h) :: t
      | [] => [[a]]

/-- Python `c in s` for a single character. -/
def hasChar (c : Char) (l : List Char) : Bool := l.any (fun a => a == c)

/-- Python `pat in s` (substring containment). -/
def containsSub (pat : List Char) : List Char → Bool
  | [] => pat.isEmpty
  | a :: rest => pat.isPrefixOf (a :: rest) || containsSub pat rest

/-- Python `s.replace(pat, rep)` with fuel (left-to-right, non-overlapping
occurrences; the fuel is always instantiated with `s.length`, which suffices
for a non-empty pattern). -/
def replaceFuel (pat rep : List Char) : Nat → List Char → List Char
  | _, [] => []
  | 0, l => l
  | fuel + 1, a :: rest =>
    if pat ≠ [] ∧ pat.isPrefixOf (a :: rest) then
      rep ++ replaceFuel pat rep fuel ((a :: rest).drop pat.length)
    else
      a :: replaceFuel pat rep fuel rest

/-- Python `s.replace(pat, rep)` for a non-empty pattern. -/
def pyReplace (pat rep l : List Char) : List Char :=
  replaceFuel pat rep l.length l

/-- Python `sep.join(parts)` for a single-character separator. -/
def joinChar (c : Char) : List (List Char) → List Char
  | [] => []
  | [x] => x
  | x :: y :: rest => x ++ c :: joinChar c (y :: rest)

/-- Lexicographic strict order on character lists (Python `<` on `str`,
comparing code points). -/
def strLt : List Char → List Char → Bool
  | [], [] => false
  | [], _ :: _ => true
  | _ :: _, [] => false
  | a :: as, b :: bs =>
    if a.toNat < b.toNat then true
    else if b.toNat < a.toNat then false
    else strLt as bs

/-- Lexicographic `≤` on character lists. -/
def strLe (a b : List Char) : Bool := strLt a b || a == b

/-- Insert into a list sorted by `le` (helper for `insertionSort`). -/
def insertSorted (le : α → α → Bool) (a : α) : List α → List α
  | [] => [a]
  | b :: l => if le a b then a :: b :: l else b :: insertSorted le a l

/-- Insertion sort.  On the (duplicate-free) inputs it is applied to below it
agrees with Python's stable `sorted`. -/
def insertionSort (le : α → α → Bool) : List α → List α
  | [] => []
  | a :: l => insertSorted le a (insertionSort le l)

/-- ASCII letter (`[a-zA-Z]`), by code point. -/
def isAsciiAlphaB (c : Char) : Bool :=
  decide (65 ≤ c.toNat ∧ c.toNat ≤ 90) || decide (97 ≤ c.toNat ∧ c.toNat ≤ 122)

/-- ASCII digit (`[0-9]`), by code point. -/
def isDigitB (c : Char) : Bool :=
  decide (48 ≤ c.toNat ∧ c.toNat ≤ 57)

/-- Hexadecimal digit test (as in CPython's `unquote`). -/
def isHexDigitB (c : Char) : Bool :=
  isDigitB c || decide (97 ≤ c.toNat ∧ c.toNat ≤ 102) ||
  decide (65 ≤ c.toNat ∧ c.toNat ≤ 70)

/-- Value of a hexadecimal digit. -/
def hexVal (c : Char) : Nat :=
  if '0' ≤ c && c ≤ '9' then c.toNat - 48
  else if 'a' ≤ c && c ≤ 'f' then c.toNat - 87
  else c.toNat - 55

/-! ## `urllib.parse` model -/

/-- CPython `unquote`: decode `%XX` ASCII escapes, leave malformed escapes
verbatim (modelled for single-byte code points). -/
def unquotePercent : List Char → List Char
  | [] => []
  | '%' :: h1 :: h2 :: rest2 =>
    if isHexDigitB h1 && isHexDigitB h2 then
      Char.ofNat (hexVal h1 * 16 + hexVal h2) :: unquotePercent rest2
    else '%' :: unquotePercent (h1 :: h2 :: rest2)
  | c :: rest => c :: unquotePercent rest

/-- CPython `unquote_plus`: `+` becomes space, then percent-decoding
(the `.replace('+', ' ')` happens before `unquote`, as in `parse_qsl`). -/
def unquote_plus (l : List Char) : List Char :=
  unquotePercent (l.map (fun c => if c == '+' then ' ' else c))

/-- Characters allowed in a URL scheme (`urllib.parse.scheme_chars`). -/
def schemeChar (c : Char) : Bool :=
  isAsciiAlphaB c || isDigitB c || c == '+' || c == '-' || c == '.'

/-- Scheme extraction step of CPython `urlsplit`: if the text before the
first `:` is a non-empty run of scheme characters starting with an ASCII
letter, it is the (lowercased) scheme. -/
def extractScheme (u : List Char) : List Char × List Char :=
  match splitFirstChar ':' u with
  | some (pre, post) =>
    (match pre with
     | [] => ([], u)
     | c :: _ => if isAsciiAlphaB c && pre.all schemeChar then (lowerStr pre, post) else ([], u))
  | none => ([], u)

/-- `_splitnetloc`: the netloc runs until the first of `/`, `?`, `#`. -/
def splitnetloc (u : List Char) : List Char × List Char :=
  (u.takeWhile (fun c => !(c == '/' || c == '?' || c == '#')),
   u.dropWhile (fun c => !(c == '/' || c == '?' || c == '#')))

/-- `_splitparams`: split `;params` off the last path segment. -/
def splitparams (p : List Char) : List Char × List Char :=
  if hasChar '/' p then
    let b := (p.reverse.takeWhile (fun c => !(c == '/'))).reverse
    let aSlash := p.take (p.length - b.length)
    match splitFirstChar ';' b with
    | some (b1, b2) => (aSlash ++ b1, b2)
    | none => (p, [])
  else
    match splitFirstChar ';' p with
    | some (x, y) => (x, y)
    | none => (p, [])

/-- Result of `urllib.parse.urlparse`. -/
structure UrlParts where
  scheme : List Char
  netloc : List Char
  path : List Char
  params : List Char
  query : List Char
  fragment : List Char
deriving Repr, DecidableEq

/-- CPython `urlsplit` (without the bracketed-IPv6 validation, which raises
for inputs not appearing here), followed by `urlparse`'s params split:
scheme, then `//netloc`, then fragment at the first `#`, then query at the
first `?`, then `;params` from the last path segment. -/
def urlparseList (u : List Char) : UrlParts :=
  let sp := extractScheme u
  let nl :=
    match sp.2 with
    | '/' :: '/' :: rest => splitnetloc rest
    | other => ([], other)
  let fr :=
    match splitFirstChar '#' nl.2 with
    | some (a, b) => (a, b)
    | none => (nl.2, [])
  let pq :=
    match splitFirstChar '?' fr.1 with
    | some (a, b) => (a, b)
    | none => (fr.1, [])
  let pp :=
    if hasChar ';' pq.1 then splitparams pq.1 else (pq.1, [])
  ⟨sp.1, nl.1, pp.1, pp.2, pq.2, fr.2⟩

/-- `urlparse` on a `String`. -/
def urlparse (u : String) : UrlParts := urlparseList u.data

/-- Tail of `urlparseList` after the netloc decision (proof decomposition of
the let-chain; `urlparseList_eq_afterNetloc` ties it to the definition). -/
def afterNetloc (s : List Char) (nl : List Char × List Char) : UrlParts :=
  let fr :=
    match splitFirstChar '#' nl.2 with
    | some (a, b) => (a, b)
    | none => (nl.2, [])
  let pq :=
    match splitFirstChar '?' fr.1 with
    | some (a, b) => (a, b)
    | none => (fr.1, [])
  let pp :=
    if hasChar ';' pq.1 then splitparams pq.1 else (pq.1, [])
  ⟨s, nl.1, pp.1, pp.2, pq.2, fr.2⟩

/-- One name/value pair list of CPython `parse_qsl` (separator `&`,
`keep_blank_values=False`, non-strict): empty fields and fields without `=`
or with an empty value are dropped; names and values are `unquote_plus`-decoded. -/
def parse_qsl (qs : List Char) : List (List Char × List Char) :=
  (splitAllChar '&' qs).filterMap (fun field =>
    if field = [] then none
    else
      match splitFirstChar '=' field with
      | none => none
      | some (n, v) =>
        if v = [] then none else some (unquote_plus n, unquote_plus v))

/-- Add one `parse_qsl` pair to the `parse_qs` dict (insertion-ordered
association list; repeated keys accumulate their values in order). -/
def addQsEntry (d : List (List Char × List (List Char))) (n : List Char)
    (v : List Char) : List (List Char × List (List Char)) :=
  if d.any (fun kv => kv.1 == n) then
    d.map (fun kv => if kv.1 == n then (kv.1, kv.2 ++ [v]) else kv)
  else d ++ [(n, [v])]

/-- CPython `parse_qs`: group `parse_qsl` pairs by name. -/
def parse_qs (qs : List Char) : List (List Char × List (List Char)) :=
  (parse_qsl qs).foldl (fun d nv => addQsEntry d nv.1 nv.2) []

/-! ## `normalize_url` -/

/-- Python dict assignment `d[k] = v`: overwrite in place or append. -/
def updAssoc (d : List (List Char × List Char)) (k v : List Char) :
    List (List Char × List Char) :=
  if d.any (fun kv => kv.1 == k) then
    d.map (fun kv => if kv.1 == k then (k, v) else kv)
  else d ++ [(k, v)]

/-- Ordering used by `sorted(query_params.items())`: Python tuple order
(keys first; keys are unique in every use below). -/
def pairLe (a b : List Char × List Char) : Bool :=
  strLt a.1 b.1 || (a.1 == b.1 && strLe a.2 b.2)

/-- Render the sorted query pairs as `k=v` joined by `&`. -/
def joinQueryPairs (pairs : List (List Char × List Char)) : List Char :=
  joinChar '&' (pairs.map (fun kv => kv.1 ++ '=' :: kv.2))

/-- Character-level core of `normalize_url` (`domain_crawler.py`, lines
133–163): lowercase the netloc and delete every `www.` occurrence
(`str.replace` removes all occurrences, not only a leading one); lowercase
the path and strip trailing slashes; keep the first value of each query
parameter under its lowercased key, lowercased, sorted by key. -/
def normalize_core (u : List Char) : List Char :=
  let parsed := urlparseList u
  let domain := pyReplace ("www.".data) [] (lowerStr parsed.netloc)
  let path := lowerStr (rstripSlash parsed.path)
  let qp := (parse_qs parsed.query).foldl
    (fun d kv => updAssoc d (lowerStr kv.1) (lowerStr (kv.2.headD []))) []
  let normalized := parsed.scheme ++ ("://".data) ++ domain ++ path
  if qp.isEmpty then normalized
  else normalized ++ '?' :: joinQueryPairs (insertionSort pairLe qp)

/-- `normalize_url` (source lines 133–163). -/
def normalize_url (u : String) : String := ⟨normalize_core u.data⟩

/-- The query dictionary built by `normalize_url` (proof decomposition of its
`let qp`). -/
def qpOf (q : List Char) : List (List Char × List Char) :=
  (parse_qs q).foldl (fun d kv => updAssoc d (lowerStr kv.1) (lowerStr (kv.2.headD []))) []

/-- The `?query` tail appended by `normalize_url` (proof decomposition). -/
def qtailOf (q : List Char) : List Char :=
  if (qpOf q).isEmpty then [] else '?' :: joinQueryPairs (insertionSort pairLe (qpOf q))

/-! ## `is_similar_url` -/

/-- The regex `^/[a-z]{2}-[a-z]{2}(/.*)?$` applied with `re.match`:
`/xx-yy` (lowercase ASCII) followed by nothing, or by `/` and a newline-free
tail (`$` also matches just before one final newline). -/
def isLowerAZ (c : Char) : Bool := decide (97 ≤ c.toNat ∧ c.toNat ≤ 122)

/-- Tail admitted by `(/.*)?$` after the locale prefix. -/
def langTailOk (rest : List Char) : Bool :=
  match rest with
  | [] => true
  | '/' :: body =>
    let body2 := if body ≠ [] ∧ body.getLast? == some '\n' then body.dropLast else body
    !(hasChar '\n' body2)
  | _ => false

/-- Full-match test for `^/[a-z]{2}-[a-z]{2}(/.*)?$`. -/
def langMatchB (p : List Char) : Bool :=
  match p with
  | '/' :: a :: b :: h :: c :: d :: rest =>
    isLowerAZ a && isLowerAZ b && h == '-' && isLowerAZ c && isLowerAZ d && langTailOk rest
  | _ => false

/-- `re.sub(r'^/[a-z]{2}-[a-z]{2}', '', p)`: drop a leading locale prefix. -/
def stripLang (p : List Char) : List Char :=
  match p with
  | '/' :: a :: b :: h :: c :: d :: rest =>
    if isLowerAZ a && isLowerAZ b && h == '-' && isLowerAZ c && isLowerAZ d then rest
    else '/' :: a :: b :: h :: c :: d :: rest
  | other => other

/-- Count of positions with equal characters (the fallback similarity's
`sum(1 for i in range(min(len,len)) if path1[i] == path2[i])`). -/
def matchCount (a b : List Char) : Nat :=
  (a.zip b).countP (fun p => p.1 == p.2)

/-- The fallback similarity test `matches / max_len >= threshold`, as the
exact rational comparison `matches * thDen >= thNum * max_len`
(`max_len == 0` yields `True` in the source; that branch is unreachable
because it is guarded by both paths being non-empty, but it is kept). -/
def ratioGe (a b : List Char) (thNum thDen : Nat) : Bool :=
  let maxLen := max a.length b.length
  if maxLen = 0 then true
  else thNum * maxLen ≤ matchCount a b * thDen

/-- The fixed query-variation keys. -/
def commonVariationParams : List (List Char) :=
  [("feed".data), ("view".data), ("feedviewtype".data), ("sort".data),
   ("time".data), ("layout".data)]

/-- Python `dict ==` on `parse_qs` results (keys are unique by construction):
mutual containment of entries. -/
def dictEqB (d1 d2 : List (List Char × List (List Char))) : Bool :=
  d1.all (fun kv => (d2.lookup kv.1) == some kv.2) &&
  d2.all (fun kv => (d1.lookup kv.1) == some kv.2)

/-- Remove the variation parameters (`{k: v for k, v in params.items() if
k.lower() not in common_variation_params}`). -/
def filterVariation (d : List (List Char × List (List Char))) :
    List (List Char × List (List Char)) :=
  d.filter (fun kv => !(commonVariationParams.contains (lowerStr kv.1)))

/-- The query-variation rule of `is_similar_url` (source lines 208–224). -/
def queryVariationB (q1 q2 : List Char) : Bool :=
  let params1 := parse_qs q1
  let params2 := parse_qs q2
  let keys1 := params1.map (fun kv => lowerStr kv.1)
  let keys2 := params2.map (fun kv => lowerStr kv.1)
  if commonVariationParams.any (fun p => keys1.contains p || keys2.contains p) then
    dictEqB (filterVariation params1) (filterVariation params2)
  else false

/-- Character-level core of `is_similar_url` (source lines 165–226), with the
in-language positional fallback similarity (the `rapidfuzz` import fails in
the modelled configuration, as the source's `except ImportError` anticipates).
The threshold is the exact fraction `thNum/thDen` (Python default `0.8` =
`4/5`). -/
def is_similar_core (u1 u2 : List Char) (thNum thDen : Nat) : Bool :=
  let parsed1 := urlparseList u1
  let parsed2 := urlparseList u2
  if lowerStr parsed1.netloc ≠ lowerStr parsed2.netloc then false
  else
    let path1 := lowerStr (rstripSlash parsed1.path)
    let path2 := lowerStr (rstripSlash parsed2.path)
    if langMatchB path1 && langMatchB path2 &&
       (stripLang path1 == stripLang path2) then true
    else if (path1 ≠ [] ∧ path2 ≠ []) ∧ ratioGe path1 path2 thNum thDen then true
    else if path1 = path2 ∧ queryVariationB parsed1.query parsed2.query then true
    else false

/-- `is_similar_url` (source lines 165–226); the last two arguments are the
numerator and denominator of the similarity threshold (default `4/5`). -/
def is_similar_url (u1 u2 : String) (thNum thDen : Nat) : Bool :=
  is_similar_core u1.data u2.data thNum thDen

/-! ## Crawl engine (`crawl_domains`, source lines 242–384) -/

/-- `should_skip_url` (source lines 228–240): similar to an already crawled
or queued URL (the returned reason string is only logged and is omitted).
The default similarity threshold `0.8` is the fraction `4/5`. -/
def should_skip_url (url : String) (crawled_urls urls_to_crawl : List String) : Bool :=
  crawled_urls.any (fun c => is_similar_url url c 4 5) ||
  urls_to_crawl.any (fun q => is_similar_url url q 4 5)

/-- Outcome of one `page.goto` navigation, as observed by the crawl loop.
`dnsError` is the `net::ERR_NAME_NOT_RESOLVED` branch, which — in the
source — falls through to link extraction *without* assigning `soup`, so it
reuses the `soup` of the last successfully parsed page, or raises a
`NameError` if no page was parsed yet.  `redirectRecovered` carries the links
of the post-redirect page.  All remaining constructors lead to `continue`. -/
inductive NavResult where
  | dnsError
  | redirectRecovered (links : List String)
  | redirectFailed
  | otherNavError
  | noResponse
  | badStatus
  | nonHtml
  | ok (links : List String)

/-- The per-site traversal state of `crawl_domains`.  `lastSoup` models the
Python local variable `soup` (the links of the last parsed page), which leaks
across loop iterations. -/
structure CrawlState where
  urls_to_crawl : List String
  crawled_urls : List String
  found_subdomains : List String
  found_external_domains : List String
  skipped_similar : Nat
  lastSoup : Option (List String)
deriving Repr, DecidableEq

/-- Link-extraction accumulator: the parts of the state the inner
`for tag in soup...` loop writes (it reads, but never writes,
`crawled_urls`). -/
structure LinkAcc where
  urls_to_crawl : List String
  found_subdomains : List String
  found_external_domains : List String
  skipped_similar : Nat
deriving Repr, DecidableEq

/-- The authentication-gated path segments of the crawl loop. -/
def problematic_paths : List (List Char) :=
  [("/submit".data), ("/notifications".data), ("/settings".data),
   ("/account".data), ("/login".data), ("/register".data)]

/-- `any(path in url.lower() for path in problematic_paths)`: the substring
test is applied to the whole lowercased URL, not only to its path. -/
def problematicB (url : String) : Bool :=
  problematic_paths.any (fun p => containsSub p (lowerStr url.data))

/-- The ignored static-asset extensions. -/
def ignored_extensions : List (List Char) :=
  [(".png".data), (".jpg".data), (".css".data), (".js".data), (".ico".data),
   (".svg".data), (".xml".data), (".pdf".data), (".zip".data)]

/-- Link prefixes dropped before resolution. -/
def skippedLinkStart (link : String) : Bool :=
  ("mailto:".data).isPrefixOf link.data || ("tel:".data).isPrefixOf link.data ||
  ("javascript:".data).isPrefixOf link.data || ("#".data).isPrefixOf link.data

/-- Python set `add`. -/
def insertNew (s : List String) (x : String) : List String :=
  if s.contains x then s else s ++ [x]

/-- Processing of one extracted link (source lines 338–375).  `urljoin2`
is the external `urllib.parse.urljoin` collaborator, passed as an oracle. -/
def processLink (urljoin2 : String → String → String) (base_domain : List Char)
    (crawled_urls : List String) (url : String) (acc : LinkAcc) (link : String) :
    LinkAcc :=
  if link = "" ∨ skippedLinkStart link then acc
  else
    let absolute_link := urljoin2 url link
    let domain := (urlparseList absolute_link.data).netloc
    if domain = [] then acc
    else if base_domain.isSuffixOf domain then
      let acc1 :=
        if domain ≠ base_domain then
          { acc with found_subdomains := insertNew acc.found_subdomains ⟨domain⟩ }
        else acc
      if ¬ crawled_urls.contains absolute_link ∧
         ¬ acc1.urls_to_crawl.contains absolute_link ∧
         ¬ ignored_extensions.any (fun ext => ext.isSuffixOf (lowerStr absolute_link.data)) then
        if should_skip_url absolute_link crawled_urls acc1.urls_to_crawl then
          { acc1 with skipped_similar := acc1.skipped_similar + 1 }
        else
          { acc1 with urls_to_crawl := acc1.urls_to_crawl ++ [absolute_link] }
      else acc1
    else
      { acc with found_external_domains := insertNew acc.found_external_domains ⟨domain⟩ }

/-- Run link extraction over a soup's links, starting from a state's
accumulator, and put the result back into the state. -/
def extractLinks (urljoin2 : String → String → String) (base_domain : List Char)
    (url : String) (links : List String) (st : CrawlState) : CrawlState :=
  let acc := links.foldl
    (processLink urljoin2 base_domain st.crawled_urls url)
    ⟨st.urls_to_crawl, st.found_subdomains, st.found_external_domains, st.skipped_similar⟩
  { urls_to_crawl := acc.urls_to_crawl
    crawled_urls := st.crawled_urls
    found_subdomains := acc.found_subdomains
    found_external_domains := acc.found_external_domains
    skipped_similar := acc.skipped_similar
    lastSoup := st.lastSoup }

/-- Result of one iteration (or of the whole loop): a normal state, or the
state at which the loop raised (`NameError` on an unassigned `soup`). -/
inductive StepResult where
  | ok (st : CrawlState)
  | crash (st : CrawlState)
deriving Repr, DecidableEq

/-- The state carried by either constructor. -/
def StepResult.state : StepResult → CrawlState
  | .ok st => st
  | .crash st => st

/-- One iteration of the crawl loop body (source lines 257–377), assuming the
loop guard already held.  The popped URL is added to `crawled_urls` *before*
the authentication-gated check, so a skipped URL still counts toward the
`max_pages` budget. -/
def crawlStep (urljoin2 : String → String → String) (page : String → NavResult)
    (base_domain : List Char) (st : CrawlState) : StepResult :=
  match st.urls_to_crawl with
  | [] => .ok st
  | url :: rest =>
    if st.crawled_urls.contains url then
      .ok { st with urls_to_crawl := rest }
    else
      let st1 := { st with urls_to_crawl := rest,
                           crawled_urls := st.crawled_urls ++ [url] }
      if problematicB url then .ok st1
      else
        match page url with
        | .redirectFailed => .ok st1
        | .otherNavError => .ok st1
        | .noResponse => .ok st1
        | .badStatus => .ok st1
        | .nonHtml => .ok st1
        | .dnsError =>
          match st1.lastSoup with
          | none => .crash st1
          | some links => .ok (extractLinks urljoin2 base_domain url links st1)
        | .redirectRecovered links =>
          .ok (extractLinks urljoin2 base_domain url links { st1 with lastSoup := some links })
        | .ok links =>
          .ok (extractLinks urljoin2 base_domain url links { st1 with lastSoup := some links })

/-- The loop guard `while urls_to_crawl and len(crawled_urls) < max_pages`. -/
def crawlGuard (max_pages : Nat) (st : CrawlState) : Bool :=
  !st.urls_to_crawl.isEmpty && st.crawled_urls.length < max_pages

/-- The crawl loop run with fuel `n`: the state reached after at most `n`
iterations (once the guard fails the state is stable; a crash stops the
loop with the crashing state). -/
def crawlIter (urljoin2 : String → String → String) (page : String → NavResult)
    (base_domain : List Char) (max_pages : Nat) : Nat → CrawlState → StepResult
  | 0, st => .ok st
  | n + 1, st =>
    if crawlGuard max_pages st then
      match crawlStep urljoin2 page base_domain st with
      | .ok s => crawlIter urljoin2 page base_domain max_pages n s
      | .crash s => .crash s
    else .ok st

/-- The whole crawl loop, by well-founded recursion on
`(max_pages - |crawled|, |frontier|)`. -/
def crawl_loop (urljoin2 : String → String → String) (page : String → NavResult)
    (base_domain : List Char) (max_pages : Nat) (st : CrawlState) : StepResult :=
  match h1 : st.urls_to_crawl with
  | [] => .ok st
  | url :: rest =>
    if h2 : st.crawled_urls.length < max_pages then
      if st.crawled_urls.contains url then
        crawl_loop urljoin2 page base_domain max_pages { st with urls_to_crawl := rest }
      else
        let st1 := { st with urls_to_crawl := rest,
                             crawled_urls := st.crawled_urls ++ [url] }
        if problematicB url then crawl_loop urljoin2 page base_domain max_pages st1
        else
          match page url with
          | .redirectFailed => crawl_loop urljoin2 page base_domain max_pages st1
          | .otherNavError => crawl_loop urljoin2 page base_domain max_pages st1
          | .noResponse => crawl_loop urljoin2 page base_domain max_pages st1
          | .badStatus => crawl_loop urljoin2 page base_domain max_pages st1
          | .nonHtml => crawl_loop urljoin2 page base_domain max_pages st1
          | .dnsError =>
            match st1.lastSoup with
            | none => .crash st1
            | some links =>
              crawl_loop urljoin2 page base_domain max_pages
                (extractLinks urljoin2 base_domain url links st1)
          | .redirectRecovered links =>
            crawl_loop urljoin2 page base_domain max_pages
              (extractLinks urljoin2 base_domain url links { st1 with lastSoup := some links })
          | .ok links =>
            crawl_loop urljoin2 page base_domain max_pages
              (extractLinks urljoin2 base_domain url links { st1 with lastSoup := some links })
    else .ok st
termination_by (max_pages - st.crawled_urls.length, st.urls_to_crawl.length)
decreasing_by
  all_goals simp_all [extractLinks, Prod.lex_iff]
  all_goals omega

/-- Initial state of `crawl_domains`. -/
def crawlInit (start_url : String) : CrawlState :=
  ⟨[start_url], [], [], [], 0, none⟩

/-- `base_domain = urlparse(start_url).netloc.replace("www.", "")`
(source line 251; note: no lowercasing here). -/
def crawlBaseDomain (start_url : String) : List Char :=
  pyReplace ("www.".data) [] (urlparseList start_url.data).netloc

/-- `crawl_domains` (source lines 242–384): run the loop from the seed URL
and return the sorted subdomain and external-domain lists, or `none` when the
loop escapes with an exception (`NameError` on `soup`). -/
def crawl_domains (urljoin2 : String → String → String) (page : String → NavResult)
    (start_url : String) (max_pages : Nat) : Option (List String × List String) :=
  match crawl_loop urljoin2 page (crawlBaseDomain start_url) max_pages (crawlInit start_url) with
  | .crash _ => none
  | .ok st =>
    some (insertionSort (fun a b => strLe a.data b.data) st.found_subdomains,
          insertionSort (fun a b => strLe a.data b.data) st.found_external_domains)

/-! ## DNS validator (`validate_domain_dns_with_retry`, source lines 489–526) -/

/-- Outcome of one `dns.resolver.resolve` call. -/
inductive LookupResult where
  | success
  | nxdomain
  | noAnswer
  | otherErr
deriving Repr, DecidableEq

/-- The resolver's behaviour for one retry attempt: the outcome of the `A`
lookup and (if consulted) of the `AAAA` lookup. -/
structure DnsAttempt where
  a : LookupResult
  aaaa : LookupResult
deriving Repr, DecidableEq

/-- The retry loop of `validate_domain_dns_with_retry`; `attempt` is the
Python loop variable, `rem + 1` the number of remaining iterations
(`attempt < max_retries - 1` is `0 < rem`).  An `otherErr` on the `AAAA`
lookup is raised *inside* the `except (NXDOMAIN, NoAnswer)` handler of the
`A` lookup, so no handler of that `try` statement catches it: it propagates
to the caller (`Except.error`). -/
def validate_loop (oracle : Nat → DnsAttempt) : Nat → Nat → Except Unit Bool
  | _, 0 => .ok false
  | attempt, rem + 1 =>
    match (oracle attempt).a with
    | .success => .ok true
    | .nxdomain =>
      (match (oracle attempt).aaaa with
       | .success => .ok true
       | .nxdomain => if 0 < rem then validate_loop oracle (attempt + 1) rem else .ok false
       | .noAnswer => if 0 < rem then validate_loop oracle (attempt + 1) rem else .ok false
       | .otherErr => .error ())
    | .noAnswer =>
      (match (oracle attempt).aaaa with
       | .success => .ok true
       | .nxdomain => if 0 < rem then validate_loop oracle (attempt + 1) rem else .ok false
       | .noAnswer => if 0 < rem then validate_loop oracle (attempt + 1) rem else .ok false
       | .otherErr => .error ())
    | .otherErr =>
      if 0 < rem then validate_loop oracle (attempt + 1) rem else .ok true

/-- `validate_domain_dns_with_retry` (source lines 489–526), conservative
behaviour hard-coded as in the source: a non-(NXDOMAIN/NoAnswer) error on
the `A` lookup of the last attempt returns `True`. -/
def validate_domain_dns_with_retry (oracle : Nat → DnsAttempt) (max_retries : Nat) :
    Except Unit Bool :=
  validate_loop oracle 0 max_retries

/-! ## `extract_parent_domains` (source lines 386–401) -/

/-- String order wrapper (Python `sorted` on `str`). -/
def strLeS (a b : String) : Bool := strLe a.data b.data

/-- Inner loop body of `extract_parent_domains`: the candidate
`'.'.join(parts[i:])`, added to the set under the source's guard
`parent_domain != domain and len(parent_domain.split('.')) >= 2`. -/
def addParentCandidate (domain : String) (acc2 : List String) (i : Nat) : List String :=
  let parts := splitAllChar '.' domain.data
  let parent_domain : String := ⟨joinChar '.' (parts.drop i)⟩
  if parent_domain ≠ domain ∧ 2 ≤ (splitAllChar '.' parent_domain.data).length then
    insertNew acc2 parent_domain
  else acc2

/-- Outer loop body of `extract_parent_domains`: for a domain with ≥ 3
dot-separated parts, add the candidates for `i in range(1, len(parts) - 1)`. -/
def addParentsOf (acc : List String) (domain : String) : List String :=
  let parts := splitAllChar '.' domain.data
  if 3 ≤ parts.length then
    ((List.range (parts.length - 1)).drop 1).foldl (addParentCandidate domain) acc
  else acc

/-- `extract_parent_domains`: the collected Python set (modelled as an
order-of-first-insertion duplicate-free list), returned sorted. -/
def extract_parent_domains (domains : List String) : List String :=
  insertionSort strLeS (domains.foldl addParentsOf [])

/-! ## `load_existing_domains` (source lines 532–577) -/

/-- Character class `[a-zA-Z0-9.-]` of the domain regex. -/
def isDomainChar (c : Char) : Bool :=
  isAsciiAlphaB c || isDigitB c || c == '.' || c == '-'

/-- Full match of `^[a-zA-Z0-9.-]+\.[a-zA-Z]{2,}$`: some decomposition
`s = a ++ '.' ++ b` with `a` a non-empty run of `[a-zA-Z0-9.-]` and `b` at
least two ASCII letters.  (`$` also matches before one trailing newline, but
every string this is applied to has been `strip()`ed, so it cannot end in a
newline.) -/
def matchesDomainRegex (s : List Char) : Bool :=
  (List.range s.length).any (fun i =>
    1 ≤ i && (s.take i).all isDomainChar &&
    (match s.drop i with
     | '.' :: b => decide (2 ≤ b.length) && b.all isAsciiAlphaB
     | _ => false))

/-- `load_existing_domains` (source lines 532–577), modelled from the point
where the file content has been read as a list of lines (the `open`/IO
boundary).  The returned Python set is modelled as a duplicate-free list.
The `'  - '` branch of the source is dead (the line was already stripped)
but is kept. -/
def load_existing_domains (lines : List String) : List String :=
  lines.foldl (fun acc line =>
    let l := pyStrip line.data
    if l = [] ∨ l.head? = some '#' then acc
    else
      let domain : Option (List Char) :=
        if ("- ".data).isPrefixOf l then some (pyStrip (l.drop 2))
        else if ("  - ".data).isPrefixOf l then some (pyStrip (l.drop 4))
        else if hasChar '.' l ∧ ¬ (("##".data).isPrefixOf l) then some (pyStrip l)
        else none
      match domain with
      | some d =>
        if d ≠ [] ∧ matchesDomainRegex d then insertNew acc ⟨lowerStr d⟩
        else acc
      | none => acc) []

/-! ## Registry reconciler (`update_output_file_incrementally`, 664–798) -/

/-- Python set difference on the duplicate-free-list model. -/
def setDiff (a b : List String) : List String :=
  a.filter (fun x => !(b.contains x))

/-- Python set union on the duplicate-free-list model. -/
def setUnion (a b : List String) : List String :=
  a ++ b.filter (fun x => !(a.contains x))

/-- Deduplicate, keeping first occurrences (Python set of a list). -/
def setDedup (l : List String) : List String :=
  l.foldl (fun acc x => insertNew acc x) []

/-- `sorted(<python set>)`. -/
def pySortedSet (l : List String) : List String :=
  insertionSort strLeS (setDedup l)

/-- The fields of the argparse namespace consumed by the reconciler. -/
structure ReconArgs where
  fqdn_list : Bool
  start_url : Option String
  concurrency : Nat
  pages : Nat
  headless : Bool
  no_persist_cookies : Bool
  dual_stack : Bool
  url_file : Option String
  cookies : Option String
  log_file : Option String

/-- Python truthiness of an optional string. -/
def optTruthy : Option String → Bool
  | none => false
  | some s => !(s == "")

/-- Python `f"{b}"` for a bool. -/
def pyBool (b : Bool) : String := if b then "True" else "False"

/-- The `# Input Sources:` block (`if input_urls:` is false for `None` and
for an empty list). -/
def inputSourceLines (input_urls : Option (List String)) (start_url : Option String) :
    List String :=
  match input_urls with
  | some (u :: us) =>
    ((u :: us).enum).map (fun iu => "#   " ++ toString (iu.1 + 1) ++ ". " ++ iu.2)
  | _ =>
    ["#   1. " ++ (match start_url with
      | some s => if s == "" then "Unknown" else s
      | none => "Unknown")]

/-- The `# ====` separator line of the report headers (48 equal signs,
written at source lines 721 and 746). -/
def sepLine : String := ⟨'#' :: ' ' :: List.replicate 48 '='⟩

/-- The exact sequence of lines written to the temporary file by
`update_output_file_incrementally` (source lines 686–756): a `\n`-terminated
`f.write` per element; the double newline after the `====` separator is the
empty line.  Both output modes (`--fqdn-list` and the detailed report) end
with `sorted(domains_to_write)`, one domain per line, where
`domains_to_write = (existing_domains - dead_domains) | new_domains`. -/
def update_output_content (args : ReconArgs) (current_time : String)
    (input_urls : Option (List String)) (backup_file : Option String)
    (new_domains existing_domains dead_domains : List String) : List String :=
  let domains_to_write := setDedup (setUnion (setDiff existing_domains dead_domains) new_domains)
  let total_new := (setDedup new_domains).length
  let total_removed := (setDedup dead_domains).length
  let sortedDoms := pySortedSet domains_to_write
  if args.fqdn_list then
    ["# Organization FQDN List",
     "# Generated by Domain Crawler - excludes third-party domains",
     "# Last updated: " ++ current_time,
     "#",
     "# Input Sources:"]
    ++ inputSourceLines input_urls args.start_url
    ++ ["#",
        "# Statistics:",
        "#   Total organization domains: " ++ toString domains_to_write.length,
        "#   New domains added this run: " ++ toString total_new,
        "#   Dead domains removed this run: " ++ toString total_removed,
        "#   Concurrency level: " ++ toString args.concurrency,
        "#   Max pages per site: " ++ toString args.pages,
        "#",
        "# Script Configuration:",
        "#   Headless mode: " ++ pyBool args.headless,
        "#   Cookie persistence: " ++ pyBool (!args.no_persist_cookies),
        "#   Dual-stack mode: " ++ pyBool args.dual_stack]
    ++ (if optTruthy args.url_file then ["#   URL file: " ++ args.url_file.getD ""] else [])
    ++ (if optTruthy args.cookies then ["#   Cookie file: " ++ args.cookies.getD ""] else [])
    ++ (if optTruthy args.log_file then ["#   Log file: " ++ args.log_file.getD ""] else [])
    ++ (if optTruthy backup_file then ["#   Backup file: " ++ backup_file.getD ""] else [])
    ++ ["#",
        "# Format: One domain per line (FQDN format)",
        sepLine,
        ""]
    ++ sortedDoms
  else
    ["# Domain Analysis Report",
     "# Generated by Domain Crawler",
     "# Last updated: " ++ current_time,
     "#",
     "# Input Sources:"]
    ++ inputSourceLines input_urls args.start_url
    ++ ["#",
        "# Script Configuration:",
        "#   Concurrency level: " ++ toString args.concurrency,
        "#   Max pages per site: " ++ toString args.pages,
        "#   Headless mode: " ++ pyBool args.headless,
        "#   Cookie persistence: " ++ pyBool (!args.no_persist_cookies),
        "#   Dual-stack mode: " ++ pyBool args.dual_stack]
    ++ (if optTruthy backup_file then ["#   Backup file: " ++ backup_file.getD ""] else [])
    ++ [sepLine,
        "",
        "## Summary",
        "- Last updated: " ++ current_time,
        "- Total organization domains: " ++ toString domains_to_write.length,
        "- New domains added this run: " ++ toString total_new,
        "- Dead domains removed this run: " ++ toString total_removed,
        "",
        "## Organization FQDN List"]
    ++ sortedDoms

/-- Filesystem state seen by the reconciler: the content (if the file
exists) at the output path, the temporary sibling path, and the backup
path. -/
structure ReconFS where
  output : Option (List String)
  temp : Option (List String)
  backup : Option (List String)
deriving Repr, DecidableEq

/-- Failure injection for the temporary-file write and the atomic move. -/
inductive WriteOutcome where
  | ok
  | openFail
  | failPartial (written : List String)
  | moveFail
deriving Repr, DecidableEq

/-- `create_backup_file` (source lines 645–662): no-op if the output file
does not exist; best-effort `shutil.copy2` otherwise (a failed copy is
logged, not fatal, and yields `backup_file = None`). -/
def create_backup_file (fs : ReconFS) (copyOk : Bool) :
    Option (List String) × ReconFS :=
  match fs.output with
  | none => (none, fs)
  | some content =>
    if copyOk then (some content, { fs with backup := some content }) else (none, fs)

/-- The `except` branch of the reconciler: restore the output from the
backup, if one was made and the restore copy succeeds. -/
def restoreStep (fs : ReconFS) (backup_file : Option (List String))
    (restoreOk : Bool) : ReconFS :=
  match backup_file with
  | some b => if restoreOk then { fs with output := some b } else fs
  | none => fs

/-- Filesystem effect of `update_output_file_incrementally` (source lines
664–798): back up, write `content` to the temporary sibling, atomically move
it onto the output.  On any exception: delete the temporary file if it
exists (best-effort), then restore from the backup (best-effort).
`shutil.move` within one directory is an atomic `os.rename`, so `moveFail`
leaves the output untouched. -/
def update_output_file_incrementally (fs : ReconFS) (content : List String)
    (w : WriteOutcome) (backupOk removeOk restoreOk : Bool) : ReconFS :=
  let bf := create_backup_file fs backupOk
  let backup_file := bf.1
  let fs1 := bf.2
  match w with
  | .ok => { fs1 with temp := none, output := some content }
  | .openFail => restoreStep fs1 backup_file restoreOk
  | .failPartial part =>
    let fs2 := { fs1 with temp := some part }
    let fs3 := if removeOk then { fs2 with temp := none } else fs2
    restoreStep fs3 backup_file restoreOk
  | .moveFail =>
    let fs2 := { fs1 with temp := some content }
    let fs3 := if removeOk then { fs2 with temp := none } else fs2
    restoreStep fs3 backup_file restoreOk

/-! ## Lemmas -/

theorem matchCount_comm (a b : List Char) : matchCount a b = matchCount b a := by
  induction a generalizing b with
  | nil => cases b <;> simp [matchCount]
  | cons x xs ih =>
    cases b with
    | nil => simp [matchCount]
    | cons y ys =>
      simp only [matchCount, List.zip_cons_cons, List.countP_cons] at *
      rw [ih ys]
      have : (x == y) = (y == x) := by
        by_cases h : x = y
        · subst h; rfl
        · simp [h, Ne.symm h]
      simp [this]

theorem ratioGe_comm (a b : List Char) (thNum thDen : Nat) :
    ratioGe a b thNum thDen = ratioGe b a thNum thDen := by
  simp [ratioGe, Nat.max_comm, matchCount_comm]

theorem dictEqB_comm (d1 d2 : List (List Char × List (List Char))) :
    dictEqB d1 d2 = dictEqB d2 d1 := by
  simp [dictEqB, Bool.and_comm]

theorem queryVariationB_comm (q1 q2 : List Char) :
    queryVariationB q1 q2 = queryVariationB q2 q1 := by
  unfold queryVariationB
  have hc : (fun p =>
      ((parse_qs q1).map (fun kv => lowerStr kv.1)).contains p ||
      ((parse_qs q2).map (fun kv => lowerStr kv.1)).contains p) =
    (fun p =>
      ((parse_qs q2).map (fun kv => lowerStr kv.1)).contains p ||
      ((parse_qs q1).map (fun kv => lowerStr kv.1)).contains p) :=
    funext fun p => Bool.or_comm _ _
  simp only [hc, dictEqB_comm]

theorem simCascade_comm (p1 p2 q1 q2 : List Char) (thNum thDen : Nat) :
    (if (langMatchB p1 && langMatchB p2 && (stripLang p1 == stripLang p2)) = true then true
     else if (¬ p1 = [] ∧ ¬ p2 = []) ∧ ratioGe p1 p2 thNum thDen = true then true
     else if p1 = p2 ∧ queryVariationB q1 q2 = true then true else false)
    = (if (langMatchB p2 && langMatchB p1 && (stripLang p2 == stripLang p1)) = true then true
       else if (¬ p2 = [] ∧ ¬ p1 = []) ∧ ratioGe p2 p1 thNum thDen = true then true
       else if p2 = p1 ∧ queryVariationB q2 q1 = true then true else false) := by
  have hA : (langMatchB p1 && langMatchB p2 && (stripLang p1 == stripLang p2)) =
      (langMatchB p2 && langMatchB p1 && (stripLang p2 == stripLang p1)) := by
    by_cases e : stripLang p1 = stripLang p2
    · rw [e]
      cases langMatchB p1 <;> cases langMatchB p2 <;> simp
    · have e1 : (stripLang p1 == stripLang p2) = false := beq_eq_false_iff_ne.mpr e
      have e2 : (stripLang p2 == stripLang p1) = false :=
        beq_eq_false_iff_ne.mpr (fun x => e x.symm)
      simp [e1, e2]
  have hB : ((¬ p1 = [] ∧ ¬ p2 = []) ∧ ratioGe p1 p2 thNum thDen = true) ↔
      ((¬ p2 = [] ∧ ¬ p1 = []) ∧ ratioGe p2 p1 thNum thDen = true) := by
    rw [ratioGe_comm]
    tauto
  have hC : (p1 = p2 ∧ queryVariationB q1 q2 = true) ↔
      (p2 = p1 ∧ queryVariationB q2 q1 = true) := by
    rw [queryVariationB_comm]
    constructor <;> rintro ⟨x, y⟩ <;> exact ⟨x.symm, y⟩
  rw [hA]
  exact if_congr Iff.rfl rfl (if_congr hB rfl (if_congr hC rfl rfl))

theorem is_similar_core_comm (u1 u2 : List Char) (thNum thDen : Nat) :
    is_similar_core u1 u2 thNum thDen = is_similar_core u2 u1 thNum thDen := by
  unfold is_similar_core
  by_cases h : lowerStr (urlparseList u1).netloc = lowerStr (urlparseList u2).netloc
  · simp only [h, ne_eq, not_true_eq_false, if_false]
    exact simCascade_comm _ _ _ _ _ _
  · have h2 : ¬ lowerStr (urlparseList u2).netloc = lowerStr (urlparseList u1).netloc :=
      fun x => h x.symm
    simp [h, h2]

theorem mem_insertSorted {α} (le : α → α → Bool) (a x : α) (l : List α) :
    x ∈ insertSorted le a l ↔ x = a ∨ x ∈ l := by
  induction l with
  | nil => simp [insertSorted]
  | cons b t ih =>
    unfold insertSorted
    split
    · simp
    · simp only [List.mem_cons, ih]
      tauto

theorem mem_insertionSort {α} (le : α → α → Bool) (x : α) (l : List α) :
    x ∈ insertionSort le l ↔ x ∈ l := by
  induction l with
  | nil => simp [insertionSort]
  | cons a t ih => simp [insertionSort, mem_insertSorted, ih]

theorem mem_insertNew (s : List String) (y x : String) :
    x ∈ insertNew s y → x ∈ s ∨ x = y := by
  unfold insertNew
  split
  · exact fun h => Or.inl h
  · intro h
    rcases List.mem_append.mp h with h1 | h1
    · exact Or.inl h1
    · exact Or.inr (List.mem_singleton.mp h1)

/-- What membership in the inner-loop result of `extract_parent_domains`
implies: already present, or a proper dot-suffix of `domain` (at some index
drawn from the iterated list) with at least two labels. -/
theorem mem_addParentCandidate (domain : String) (acc2 : List String) (i : Nat)
    (x : String) (hx : x ∈ addParentCandidate domain acc2 i) :
    x ∈ acc2 ∨
      (x ≠ domain ∧ 2 ≤ (splitAllChar '.' x.data).length ∧
       x.data = joinChar '.' ((splitAllChar '.' domain.data).drop i)) := by
  simp only [addParentCandidate] at hx
  split at hx
  · next hguard =>
    rcases mem_insertNew _ _ _ hx with h1 | h1
    · exact Or.inl h1
    · subst h1
      exact Or.inr ⟨hguard.1, hguard.2, rfl⟩
  · exact Or.inl hx

theorem mem_inner_fold (domain : String) (idxs : List Nat) (acc2 : List String)
    (x : String) (hx : x ∈ idxs.foldl (addParentCandidate domain) acc2) :
    x ∈ acc2 ∨
      ∃ i ∈ idxs, x ≠ domain ∧ 2 ≤ (splitAllChar '.' x.data).length ∧
        x.data = joinChar '.' ((splitAllChar '.' domain.data).drop i) := by
  induction idxs generalizing acc2 with
  | nil => exact Or.inl hx
  | cons i t ih =>
    simp only [List.foldl_cons] at hx
    rcases ih _ hx with h1 | h1
    · rcases mem_addParentCandidate domain acc2 i x h1 with h2 | h2
      · exact Or.inl h2
      · exact Or.inr ⟨i, List.mem_cons_self i t, h2⟩
    · rcases h1 with ⟨j, hj, hq⟩
      exact Or.inr ⟨j, List.mem_cons_of_mem i hj, hq⟩

theorem mem_range_drop_one (m i : Nat) (h : i ∈ (List.range m).drop 1) : 1 ≤ i := by
  cases m with
  | zero => simp at h
  | succ k =>
    rw [List.range_succ_eq_map] at h
    simp only [List.drop_succ_cons, List.drop_zero] at h
    rcases List.mem_map.mp h with ⟨j, _, hj⟩
    omega

theorem mem_addParentsOf (acc : List String) (domain : String) (x : String)
    (hx : x ∈ addParentsOf acc domain) :
    x ∈ acc ∨
      ∃ i, 1 ≤ i ∧ x ≠ domain ∧ 2 ≤ (splitAllChar '.' x.data).length ∧
        x.data = joinChar '.' ((splitAllChar '.' domain.data).drop i) := by
  simp only [addParentsOf] at hx
  split at hx
  · rcases mem_inner_fold domain _ acc x hx with h1 | h1
    · exact Or.inl h1
    · rcases h1 with ⟨i, hi, hq⟩
      exact Or.inr ⟨i, mem_range_drop_one _ i hi, hq⟩
  · exact Or.inl hx

theorem mem_outer_fold (domains : List String) (acc : List String) (x : String)
    (hx : x ∈ domains.foldl addParentsOf acc) :
    x ∈ acc ∨
      ∃ d ∈ domains, ∃ i, 1 ≤ i ∧ x ≠ d ∧ 2 ≤ (splitAllChar '.' x.data).length ∧
        x.data = joinChar '.' ((splitAllChar '.' d.data).drop i) := by
  induction domains generalizing acc with
  | nil => exact Or.inl hx
  | cons d t ih =>
    simp only [List.foldl_cons] at hx
    rcases ih _ hx with h1 | h1
    · rcases mem_addParentsOf acc d x h1 with h2 | h2
      · exact Or.inl h2
      · rcases h2 with ⟨i, hi⟩
        exact Or.inr ⟨d, List.mem_cons_self d t, i, hi⟩
    · rcases h1 with ⟨e, he, hq⟩
      exact Or.inr ⟨e, List.mem_cons_of_mem d he, hq⟩

theorem toNat_ofNat_small (n : Nat) (h : n < 55296) : (Char.ofNat n).toNat = n := by
  have hv : Nat.isValidChar n := Or.inl h
  unfold Char.ofNat
  rw [dif_pos hv]
  rfl

theorem lowerChar_toNat (c : Char) :
    (lowerChar c).toNat =
      if 65 ≤ c.toNat ∧ c.toNat ≤ 90 then c.toNat + 32 else c.toNat := by
  unfold lowerChar
  split
  · next h =>
    have hc : c.toNat < 55296 := by
      have := c.val.toNat_lt
      omega
    exact toNat_ofNat_small _ (by omega)
  · rfl

theorem lowerChar_of_not_upper (c : Char) (h : ¬ (65 ≤ c.toNat ∧ c.toNat ≤ 90)) :
    lowerChar c = c := by
  unfold lowerChar
  rw [if_neg h]

theorem lowerChar_idem (c : Char) : lowerChar (lowerChar c) = lowerChar c := by
  by_cases h : 65 ≤ (lowerChar c).toNat ∧ (lowerChar c).toNat ≤ 90
  · exfalso
    rw [lowerChar_toNat] at h
    split at h <;> omega
  · exact lowerChar_of_not_upper _ h

theorem lowerStr_idem (l : List Char) : lowerStr (lowerStr l) = lowerStr l := by
  unfold lowerStr
  rw [List.map_map]
  exact List.map_congr_left (fun c _ => lowerChar_idem c)

theorem isAsciiAlphaB_lowerChar (c : Char) (h : isAsciiAlphaB c = true) :
    isAsciiAlphaB (lowerChar c) = true := by
  by_cases hu : 65 ≤ c.toNat ∧ c.toNat ≤ 90
  · have ht : (lowerChar c).toNat = c.toNat + 32 := by
      rw [lowerChar_toNat, if_pos hu]
    simp only [isAsciiAlphaB, Bool.or_eq_true, decide_eq_true_eq, ht]
    right
    omega
  · rw [lowerChar_of_not_upper c hu]
    exact h

theorem isDomainChar_lowerChar (c : Char) (h : isDomainChar c = true) :
    isDomainChar (lowerChar c) = true := by
  by_cases hu : 65 ≤ c.toNat ∧ c.toNat ≤ 90
  · have ht : (lowerChar c).toNat = c.toNat + 32 := by
      rw [lowerChar_toNat, if_pos hu]
    simp only [isDomainChar, isAsciiAlphaB, Bool.or_eq_true, decide_eq_true_eq, ht]
    exact Or.inl (Or.inl (Or.inl (Or.inr (by omega))))
  · rw [lowerChar_of_not_upper c hu]
    exact h

theorem matchesDomainRegex_lowerStr (s : List Char)
    (h : matchesDomainRegex s = true) : matchesDomainRegex (lowerStr s) = true := by
  unfold matchesDomainRegex at h ⊢
  rw [List.any_eq_true] at h ⊢
  rcases h with ⟨i, hi, hcond⟩
  refine ⟨i, by simpa [lowerStr] using hi, ?_⟩
  simp only [Bool.and_eq_true, decide_eq_true_eq] at hcond ⊢
  obtain ⟨⟨h1, h2⟩, h3⟩ := hcond
  refine ⟨⟨h1, ?_⟩, ?_⟩
  · rw [show (lowerStr s).take i = lowerStr (s.take i) from (List.map_take ..).symm]
    rw [List.all_eq_true] at h2 ⊢
    intro c hc
    rcases List.mem_map.mp hc with ⟨c0, hc0, rfl⟩
    exact isDomainChar_lowerChar c0 (h2 c0 hc0)
  · rw [show (lowerStr s).drop i = lowerStr (s.drop i) from (List.map_drop ..).symm]
    revert h3
    cases hd : s.drop i with
    | nil => intro h3; exact absurd h3 (by simp)
    | cons x b =>
      intro h3
      split at h3
      · next heq =>
        cases heq
        have : lowerStr ('.' :: b) = '.' :: lowerStr b := by
          simp [lowerStr, lowerChar_of_not_upper '.' (by decide)]
        rw [this]
        simp only [Bool.and_eq_true, decide_eq_true_eq] at h3 ⊢
        refine ⟨by simpa [lowerStr] using h3.1, ?_⟩
        rw [List.all_eq_true] at h3 ⊢
        intro c hc
        rcases List.mem_map.mp hc with ⟨c0, hc0, rfl⟩
        exact isAsciiAlphaB_lowerChar c0 (h3.2 c0 hc0)
      · exact absurd h3 (by simp)

/-- Membership in the `load_existing_domains` fold: every element was there
already or is the lowercasing of a regex-validated stripped line fragment. -/
theorem mem_load_fold (lines : List String) (acc : List String) (x : String)
    (hx : x ∈ lines.foldl (fun acc line =>
      let l := pyStrip line.data
      if l = [] ∨ l.head? = some '#' then acc
      else
        let domain : Option (List Char) :=
          if ("- ".data).isPrefixOf l then some (pyStrip (l.drop 2))
          else if ("  - ".data).isPrefixOf l then some (pyStrip (l.drop 4))
          else if hasChar '.' l ∧ ¬ (("##".data).isPrefixOf l) then some (pyStrip l)
          else none
        match domain with
        | some d =>
          if d ≠ [] ∧ matchesDomainRegex d then insertNew acc ⟨lowerStr d⟩
          else acc
        | none => acc) acc) :
    x ∈ acc ∨ ∃ d : List Char, matchesDomainRegex d = true ∧ x = ⟨lowerStr d⟩ := by
  induction lines generalizing acc with
  | nil => exact Or.inl hx
  | cons line t ih =>
    simp only [List.foldl_cons] at hx
    rcases ih _ hx with h1 | h1
    · revert h1
      split
      · exact fun h1 => Or.inl h1
      · split
        · next d heq =>
          split
          · next hg =>
            intro h1
            rcases mem_insertNew _ _ _ h1 with h2 | h2
            · exact Or.inl h2
            · exact Or.inr ⟨d, hg.2, h2⟩
          · exact fun h1 => Or.inl h1
        · exact fun h1 => Or.inl h1
    · exact Or.inr h1

/-- If the `A` lookup yields a non-definitive error on every attempt in the
window, the retry loop returns `True`. -/
theorem validate_loop_all_otherErr (oracle : Nat → DnsAttempt) :
    ∀ (rem attempt : Nat), 0 < rem →
      (∀ i, attempt ≤ i → i < attempt + rem → (oracle i).a = .otherErr) →
      validate_loop oracle attempt rem = .ok true := by
  intro rem
  induction rem with
  | zero => intro attempt h; omega
  | succ r ih =>
    intro attempt _ hall
    have ha : (oracle attempt).a = .otherErr := hall attempt (le_refl _) (by omega)
    unfold validate_loop
    rw [ha]
    dsimp only
    by_cases hr : 0 < r
    · rw [if_pos hr]
      exact ih (attempt + 1) hr (fun i h1 h2 => hall i (by omega) (by omega))
    · rw [if_neg hr]

theorem contains_iff_mem (s : List String) (x : String) :
    s.contains x = true ↔ x ∈ s :=
  List.elem_iff

theorem mem_insertNew_iff (s : List String) (y x : String) :
    x ∈ insertNew s y ↔ x ∈ s ∨ x = y := by
  unfold insertNew
  split
  · next h =>
    rw [contains_iff_mem] at h
    constructor
    · exact fun hx => Or.inl hx
    · rintro (hx | rfl)
      · exact hx
      · exact h
  · simp

theorem nodup_insertNew (s : List String) (y : String) (h : s.Nodup) :
    (insertNew s y).Nodup := by
  unfold insertNew
  split
  · exact h
  · next hc =>
    rw [List.nodup_append]
    refine ⟨h, List.nodup_singleton y, ?_⟩
    intro x hx
    simp only [List.mem_singleton]
    rintro rfl
    exact hc (contains_iff_mem s x |>.mpr hx)

theorem setDedup_spec (l : List String) :
    (∀ x, x ∈ setDedup l ↔ x ∈ l) ∧ (setDedup l).Nodup := by
  have key : ∀ (t acc : List String), acc.Nodup →
      (∀ x, x ∈ t.foldl (fun a y => insertNew a y) acc ↔ x ∈ acc ∨ x ∈ t) ∧
      (t.foldl (fun a y => insertNew a y) acc).Nodup := by
    intro t
    induction t with
    | nil =>
      intro acc h
      exact ⟨fun x => by simp, h⟩
    | cons y ys ih =>
      intro acc h
      simp only [List.foldl_cons]
      obtain ⟨hmem, hnd⟩ := ih (insertNew acc y) (nodup_insertNew acc y h)
      refine ⟨fun x => ?_, hnd⟩
      rw [hmem x, mem_insertNew_iff]
      simp only [List.mem_cons]
      tauto
  obtain ⟨hmem, hnd⟩ := key l [] List.nodup_nil
  refine ⟨fun x => ?_, hnd⟩
  rw [setDedup, hmem x]
  simp

theorem mem_setUnion (a b : List String) (x : String) :
    x ∈ setUnion a b ↔ x ∈ a ∨ x ∈ b := by
  unfold setUnion
  rw [List.mem_append, List.mem_filter]
  by_cases hx : x ∈ a
  · simp [hx]
  · have hc : a.contains x = false := by
      cases hcc : a.contains x
      · rfl
      · exact absurd ((contains_iff_mem a x).mp hcc) hx
    simp [hx, hc]

theorem mem_setDiff (a b : List String) (x : String) :
    x ∈ setDiff a b ↔ x ∈ a ∧ ¬ x ∈ b := by
  unfold setDiff
  rw [List.mem_filter]
  by_cases hb : x ∈ b
  · have hc : b.contains x = true := (contains_iff_mem b x).mpr hb
    simp [hb, hc]
  · have hc : b.contains x = false := by
      cases hcc : b.contains x
      · rfl
      · exact absurd ((contains_iff_mem b x).mp hcc) hb
    simp [hb, hc]

theorem strLt_trichotomy (a b : List Char) :
    strLt a b = true ∨ strLt b a = true ∨ a = b := by
  induction a generalizing b with
  | nil =>
    cases b with
    | nil => right; right; rfl
    | cons y ys => left; rfl
  | cons x xs ih =>
    cases b with
    | nil => right; left; rfl
    | cons y ys =>
      by_cases h1 : x.toNat < y.toNat
      · left
        simp [strLt, h1]
      · by_cases h2 : y.toNat < x.toNat
        · right; left
          simp [strLt, h2]
        · have hxy : x = y := Char.ext (UInt32.ext (by
            simp only [Char.toNat] at h1 h2
            omega))
          subst hxy
          rcases ih ys with h | h | h
          · left
            simp [strLt, h1, h2, h]
          · right; left
            simp [strLt, h1, h2, h]
          · right; right
            rw [h]

theorem strLeS_total (a b : String) : strLeS a b = true ∨ strLeS b a = true := by
  unfold strLeS strLe
  rcases strLt_trichotomy a.data b.data with h | h | h
  · left; simp [h]
  · right; simp [h]
  · left
    have : a.data == b.data := beq_iff_eq.mpr h
    simp [this]

theorem insertSorted_perm {α} (le : α → α → Bool) (a : α) (l : List α) :
    List.Perm (insertSorted le a l) (a :: l) := by
  induction l with
  | nil => simp [insertSorted]
  | cons b t ih =>
    unfold insertSorted
    split
    · exact List.Perm.refl _
    · exact ((ih.cons b).trans (List.Perm.swap a b t))

theorem insertionSort_perm {α} (le : α → α → Bool) (l : List α) :
    List.Perm (insertionSort le l) l := by
  induction l with
  | nil => simp [insertionSort]
  | cons a t ih => exact (insertSorted_perm le a (insertionSort le t)).trans (ih.cons a)

theorem strLt_trans (a b c : List Char) (h1 : strLt a b = true)
    (h2 : strLt b c = true) : strLt a c = true := by
  induction a generalizing b c with
  | nil =>
    cases c with
    | nil =>
      cases b with
      | nil => exact absurd h1 (by simp [strLt])
      | cons y ys => exact absurd h2 (by simp [strLt])
    | cons z zs => rfl
  | cons x xs ih =>
    cases b with
    | nil => exact absurd h1 (by simp [strLt])
    | cons y ys =>
      cases c with
      | nil => exact absurd h2 (by simp [strLt])
      | cons z zs =>
        simp only [strLt] at h1 h2 ⊢
        split at h1
        · next hxy =>
          split at h2
          · next hyz => rw [if_pos (by omega)]
          · next hyz =>
            split at h2
            · exact absurd h2 (by simp)
            · next hzy => rw [if_pos (by omega)]
        · next hxy =>
          split at h1
          · exact absurd h1 (by simp)
          · next hyx =>
            split at h2
            · next hyz => rw [if_pos (by omega)]
            · next hyz =>
              split at h2
              · exact absurd h2 (by simp)
              · next hzy =>
                rw [if_neg (by omega), if_neg (by omega)]
                exact ih ys zs h1 h2

theorem strLeS_trans (a b c : String) (h1 : strLeS a b = true)
    (h2 : strLeS b c = true) : strLeS a c = true := by
  unfold strLeS strLe at h1 h2 ⊢
  rw [Bool.or_eq_true] at h1 h2 ⊢
  rcases h1 with g1 | g1 <;> rcases h2 with g2 | g2
  · exact Or.inl (strLt_trans _ _ _ g1 g2)
  · rw [beq_iff_eq] at g2
    rw [← g2]
    exact Or.inl g1
  · rw [beq_iff_eq] at g1
    rw [g1]
    exact Or.inl g2
  · rw [beq_iff_eq] at g1 g2
    rw [g1, g2]
    simp

theorem insertSorted_pairwise {α} (le : α → α → Bool)
    (htot : ∀ x y, le x y = true ∨ le y x = true)
    (htrans : ∀ x y z, le x y = true → le y z = true → le x z = true)
    (a : α) (l : List α)
    (h : List.Pairwise (fun x y => le x y = true) l) :
    List.Pairwise (fun x y => le x y = true) (insertSorted le a l) := by
  induction l with
  | nil => simp [insertSorted]
  | cons b t ih =>
    rcases List.pairwise_cons.mp h with ⟨hb, ht⟩
    unfold insertSorted
    split
    · next hab =>
      refine List.Pairwise.cons ?_ h
      intro y hy
      rcases List.mem_cons.mp hy with rfl | hy
      · exact hab
      · exact htrans a b y hab (hb y hy)
    · next hab =>
      have hba : le b a = true := by
        rcases htot a b with h1 | h1
        · exact absurd h1 hab
        · exact h1
      refine List.Pairwise.cons ?_ (ih ht)
      intro y hy
      rcases List.mem_cons.mp ((insertSorted_perm le a t).mem_iff.mp hy) with rfl | h1
      · exact hba
      · exact hb y h1

theorem insertionSort_pairwise {α} (le : α → α → Bool)
    (htot : ∀ x y, le x y = true ∨ le y x = true)
    (htrans : ∀ x y z, le x y = true → le y z = true → le x z = true)
    (l : List α) :
    List.Pairwise (fun x y => le x y = true) (insertionSort le l) := by
  induction l with
  | nil => simp [insertionSort]
  | cons a t ih => exact insertSorted_pairwise le htot htrans a _ ih

theorem insertionSort_eq_self {α} (le : α → α → Bool) (l : List α)
    (h : List.Pairwise (fun x y => le x y = true) l) :
    insertionSort le l = l := by
  induction l with
  | nil => rfl
  | cons a t ih =>
    rcases List.pairwise_cons.mp h with ⟨ha, ht⟩
    unfold insertionSort
    rw [ih ht]
    cases t with
    | nil => rfl
    | cons b u =>
      unfold insertSorted
      rw [if_pos (ha b (List.mem_cons_self b u))]

theorem extractLinks_crawled (u : String → String → String) (b : List Char)
    (url : String) (links : List String) (st : CrawlState) :
    (extractLinks u b url links st).crawled_urls = st.crawled_urls := rfl

theorem extractLinks_soup (u : String → String → String) (b : List Char)
    (url : String) (links : List String) (st : CrawlState) :
    (extractLinks u b url links st).lastSoup = st.lastSoup := rfl

theorem crawlStep_crawled_le (u : String → String → String) (p : String → NavResult)
    (b : List Char) (st : CrawlState) :
    ((crawlStep u p b st).state).crawled_urls.length ≤ st.crawled_urls.length + 1 := by
  cases hfr : st.urls_to_crawl with
  | nil => simp [crawlStep, hfr, StepResult.state]
  | cons url rest =>
    simp only [crawlStep, hfr]
    by_cases hc : st.crawled_urls.contains url = true
    · rw [if_pos hc]
      simp [StepResult.state]
    · rw [if_neg hc]
      by_cases hp : problematicB url = true
      · rw [if_pos hp]
        simp [StepResult.state]
      · rw [if_neg hp]
        cases hpage : p url with
        | dnsError =>
          cases hsoup : st.lastSoup <;>
            simp [hsoup, StepResult.state, extractLinks_crawled]
        | redirectRecovered links =>
          simp [StepResult.state, extractLinks_crawled]
        | redirectFailed => simp [StepResult.state]
        | otherNavError => simp [StepResult.state]
        | noResponse => simp [StepResult.state]
        | badStatus => simp [StepResult.state]
        | nonHtml => simp [StepResult.state]
        | ok links =>
          simp [StepResult.state, extractLinks_crawled]

theorem crawlStep_progress (u : String → String → String) (p : String → NavResult)
    (b : List Char) (st : CrawlState) (url : String) (rest : List String)
    (hfr : st.urls_to_crawl = url :: rest) :
    (st.crawled_urls.contains url = true ∧
      crawlStep u p b st = .ok { st with urls_to_crawl := rest }) ∨
    ((crawlStep u p b st).state.crawled_urls = st.crawled_urls ++ [url]) := by
  simp only [crawlStep, hfr]
  by_cases hc : st.crawled_urls.contains url = true
  · rw [if_pos hc]
    exact Or.inl ⟨hc, rfl⟩
  · rw [if_neg hc]
    right
    by_cases hp : problematicB url = true
    · rw [if_pos hp]
      rfl
    · rw [if_neg hp]
      cases hpage : p url with
      | dnsError =>
        cases hsoup : st.lastSoup <;>
          simp [hsoup, StepResult.state, extractLinks_crawled]
      | redirectRecovered links =>
        simp [StepResult.state, extractLinks_crawled]
      | redirectFailed => rfl
      | otherNavError => rfl
      | noResponse => rfl
      | badStatus => rfl
      | nonHtml => rfl
      | ok links =>
        simp [StepResult.state, extractLinks_crawled]

theorem crawlStep_soup (u : String → String → String) (p : String → NavResult)
    (b : List Char) (st : CrawlState) (url : String) (rest : List String)
    (hfr : st.urls_to_crawl = url :: rest)
    (hn : (crawlStep u p b st).state.lastSoup = none) :
    st.lastSoup = none ∧
    (crawlStep u p b st).state.urls_to_crawl = rest := by
  revert hn
  simp only [crawlStep, hfr]
  by_cases hc : st.crawled_urls.contains url = true
  · rw [if_pos hc]
    intro hn
    simp only [StepResult.state] at hn
    exact ⟨hn, rfl⟩
  · rw [if_neg hc]
    by_cases hp : problematicB url = true
    · rw [if_pos hp]
      intro hn
      simp only [StepResult.state] at hn
      exact ⟨hn, rfl⟩
    · rw [if_neg hp]
      cases hpage : p url with
      | dnsError =>
        cases hsoup : st.lastSoup
        · intro hn
          exact ⟨rfl, rfl⟩
        · simp only [hsoup, StepResult.state, extractLinks_soup]
          intro hn
          exact absurd hn (by simp)
      | redirectRecovered links =>
        simp only [StepResult.state, extractLinks_soup]
        intro hn
        exact absurd hn (by simp)
      | redirectFailed =>
        intro hn
        simp only [StepResult.state] at hn
        exact ⟨hn, rfl⟩
      | otherNavError =>
        intro hn
        simp only [StepResult.state] at hn
        exact ⟨hn, rfl⟩
      | noResponse =>
        intro hn
        simp only [StepResult.state] at hn
        exact ⟨hn, rfl⟩
      | badStatus =>
        intro hn
        simp only [StepResult.state] at hn
        exact ⟨hn, rfl⟩
      | nonHtml =>
        intro hn
        simp only [StepResult.state] at hn
        exact ⟨hn, rfl⟩
      | ok links =>
        simp only [StepResult.state, extractLinks_soup]
        intro hn
        exact absurd hn (by simp)

theorem crawlStep_crash (u : String → String → String) (p : String → NavResult)
    (b : List Char) (st : CrawlState) (url : String) (rest : List String)
    (hfr : st.urls_to_crawl = url :: rest) (s : CrawlState)
    (hstep : crawlStep u p b st = .crash s) :
    st.lastSoup = none ∧ s.urls_to_crawl = rest ∧ s.lastSoup = none := by
  revert hstep
  simp only [crawlStep, hfr]
  by_cases hc : st.crawled_urls.contains url = true
  · rw [if_pos hc]
    intro hstep
    exact absurd hstep (by simp)
  · rw [if_neg hc]
    by_cases hp : problematicB url = true
    · rw [if_pos hp]
      intro hstep
      exact absurd hstep (by simp)
    · rw [if_neg hp]
      cases hpage : p url with
      | dnsError =>
        cases hsoup : st.lastSoup
        · intro hstep
          rcases StepResult.crash.inj hstep with rfl
          exact ⟨rfl, rfl, rfl⟩
        · simp only [hsoup]
          intro hstep
          exact absurd hstep (by simp)
      | redirectRecovered links =>
        intro hstep
        exact absurd hstep (by simp)
      | redirectFailed =>
        intro hstep
        exact absurd hstep (by simp)
      | otherNavError =>
        intro hstep
        exact absurd hstep (by simp)
      | noResponse =>
        intro hstep
        exact absurd hstep (by simp)
      | badStatus =>
        intro hstep
        exact absurd hstep (by simp)
      | nonHtml =>
        intro hstep
        exact absurd hstep (by simp)
      | ok links =>
        intro hstep
        exact absurd hstep (by simp)

theorem crawl_loop_stop (u : String → String → String) (p : String → NavResult)
    (b : List Char) (m : Nat) (st : CrawlState)
    (hg : crawlGuard m st = false) :
    crawl_loop u p b m st = .ok st := by
  rw [crawl_loop]
  split
  · rfl
  · next url rest hfr =>
    rw [dif_neg]
    intro hlt
    rw [crawlGuard, hfr] at hg
    simp at hg
    omega

theorem crawl_loop_step (u : String → String → String) (p : String → NavResult)
    (b : List Char) (m : Nat) (st : CrawlState)
    (hg : crawlGuard m st = true) :
    crawl_loop u p b m st =
      (match crawlStep u p b st with
       | .ok s => crawl_loop u p b m s
       | .crash s => .crash s) := by
  have hlen : st.crawled_urls.length < m := by
    cases hcc : st.urls_to_crawl with
    | nil =>
      rw [crawlGuard, hcc] at hg
      simp at hg
    | cons a l =>
      rw [crawlGuard, hcc] at hg
      simp at hg
      exact hg
  conv_lhs => rw [crawl_loop]
  split
  · next h1 =>
    rw [crawlGuard, h1] at hg
    simp at hg
  · next url rest h1 =>
    rw [dif_pos hlen]
    simp only [crawlStep, h1]
    by_cases hc : st.crawled_urls.contains url = true
    · rw [if_pos hc, if_pos hc]
    · rw [if_neg hc, if_neg hc]
      by_cases hp : problematicB url = true
      · rw [if_pos hp, if_pos hp]
      · rw [if_neg hp, if_neg hp]
        cases hpage : p url with
        | dnsError =>
          cases hsoup : st.lastSoup <;> simp [hsoup]
        | redirectRecovered links => rfl
        | redirectFailed => rfl
        | otherNavError => rfl
        | noResponse => rfl
        | badStatus => rfl
        | nonHtml => rfl
        | ok links => rfl

/-- Fused termination and stopping-condition lemma for the crawl loop, by
nested induction on the remaining visit budget and the frontier length. -/
theorem crawl_loop_master (u : String → String → String) (p : String → NavResult)
    (b : List Char) (m : Nat) :
    ∀ (d f : Nat) (st : CrawlState),
      m ≤ st.crawled_urls.length + d →
      st.urls_to_crawl.length ≤ f →
      st.crawled_urls.length ≤ m →
      (st.lastSoup = none → st.urls_to_crawl.length ≤ 1) →
      (∃ n, crawlIter u p b m n st = crawl_loop u p b m st) ∧
      (match crawl_loop u p b m st with
       | .ok s => s.urls_to_crawl = [] ∨ s.crawled_urls.length = m
       | .crash s => s.urls_to_crawl = []) := by
  intro d
  induction d with
  | zero =>
    intro f st hd hf hle hJ
    have hnl : ¬ st.crawled_urls.length < m := by omega
    have hg : crawlGuard m st = false := by
      rw [crawlGuard]
      simp [hnl]
    refine ⟨⟨0, by rw [crawl_loop_stop u p b m st hg]; rfl⟩, ?_⟩
    rw [crawl_loop_stop u p b m st hg]
    exact Or.inr (by omega)
  | succ d ihd =>
    intro f
    induction f with
    | zero =>
      intro st hd hf hle hJ
      have hfr : st.urls_to_crawl = [] := List.length_eq_zero.mp (by omega)
      have hg : crawlGuard m st = false := by
        rw [crawlGuard, hfr]
        rfl
      refine ⟨⟨0, by rw [crawl_loop_stop u p b m st hg]; rfl⟩, ?_⟩
      rw [crawl_loop_stop u p b m st hg]
      exact Or.inl hfr
    | succ f ihf =>
      intro st hd hf hle hJ
      by_cases hg : crawlGuard m st = true
      · obtain ⟨url, rest, hfr⟩ : ∃ url rest, st.urls_to_crawl = url :: rest := by
          cases hcc : st.urls_to_crawl with
          | nil =>
            rw [crawlGuard, hcc] at hg
            simp at hg
          | cons a l => exact ⟨a, l, rfl⟩
        have hlen : st.crawled_urls.length < m := by
          rw [crawlGuard, hfr] at hg
          simp at hg
          exact hg
        have hflen : rest.length ≤ f := by
          rw [hfr] at hf
          simp at hf
          omega
        rcases crawlStep_progress u p b st url rest hfr with ⟨hc, hstep⟩ | hgrow
        · -- the popped URL was already visited: only the frontier shrinks
          have hJ2 : ({ st with urls_to_crawl := rest } : CrawlState).lastSoup = none →
              ({ st with urls_to_crawl := rest } : CrawlState).urls_to_crawl.length ≤ 1 := by
            intro hn
            have h2 := hJ hn
            rw [hfr] at h2
            simp only [List.length_cons] at h2
            show rest.length ≤ 1
            omega
          obtain ⟨⟨n, hn⟩, hfin⟩ := ihf { st with urls_to_crawl := rest }
            (by simpa using hd) (by simpa using hflen) (by simpa using hle) hJ2
          have hloop : crawl_loop u p b m st =
              crawl_loop u p b m { st with urls_to_crawl := rest } := by
            rw [crawl_loop_step u p b m st hg, hstep]
          refine ⟨⟨n + 1, ?_⟩, by rw [hloop]; exact hfin⟩
          rw [crawlIter, if_pos hg]
          simp only [hstep]
          rw [hn, ← hloop]
        · cases hstep : crawlStep u p b st with
          | crash s =>
            obtain ⟨hsoupst, hsfr, _⟩ := crawlStep_crash u p b st url rest hfr s hstep
            have hloop : crawl_loop u p b m st = .crash s := by
              rw [crawl_loop_step u p b m st hg, hstep]
            refine ⟨⟨1, ?_⟩, ?_⟩
            · rw [crawlIter, if_pos hg]
              simp only [hstep]
              rw [hloop]
            · rw [hloop]
              show s.urls_to_crawl = []
              have h1 := hJ hsoupst
              rw [hfr] at h1
              simp only [List.length_cons] at h1
              rw [hsfr]
              exact List.length_eq_zero.mp (by omega)
          | ok s =>
            have hsc : s.crawled_urls = st.crawled_urls ++ [url] := by
              rw [hstep] at hgrow
              exact hgrow
            have hslen : s.crawled_urls.length = st.crawled_urls.length + 1 := by
              rw [hsc]
              simp
            have hJ2 : s.lastSoup = none → s.urls_to_crawl.length ≤ 1 := by
              intro hn
              obtain ⟨h1, h2⟩ := crawlStep_soup u p b st url rest hfr
                (by rw [hstep]; exact hn)
              have h3 := hJ h1
              rw [hfr] at h3
              simp only [List.length_cons] at h3
              rw [hstep] at h2
              simp only [StepResult.state] at h2
              rw [h2]
              omega
            obtain ⟨⟨n, hn⟩, hfin⟩ := ihd s.urls_to_crawl.length s
              (by omega) (le_refl _) (by omega) hJ2
            have hloop : crawl_loop u p b m st = crawl_loop u p b m s := by
              rw [crawl_loop_step u p b m st hg, hstep]
            refine ⟨⟨n + 1, ?_⟩, by rw [hloop]; exact hfin⟩
            rw [crawlIter, if_pos hg]
            simp only [hstep]
            rw [hn, ← hloop]
      · have hg2 : crawlGuard m st = false := by
          revert hg
          cases crawlGuard m st <;> simp
        refine ⟨⟨0, by rw [crawl_loop_stop u p b m st hg2]; rfl⟩, ?_⟩
        rw [crawl_loop_stop u p b m st hg2]
        rw [crawlGuard] at hg2
        cases hcc : st.urls_to_crawl with
        | nil => exact Or.inl hcc
        | cons a l =>
          rw [hcc] at hg2
          simp at hg2
          exact Or.inr (by omega)

theorem crawlIter_card_le (u : String → String → String) (p : String → NavResult)
    (b : List Char) (m : Nat) :
    ∀ (n : Nat) (st : CrawlState), st.crawled_urls.length ≤ m →
      (crawlIter u p b m n st).state.crawled_urls.length ≤ m := by
  intro n
  induction n with
  | zero => intro st h; exact h
  | succ n ih =>
    intro st h
    rw [crawlIter]
    by_cases hg : crawlGuard m st = true
    · rw [if_pos hg]
      have hlen : st.crawled_urls.length < m := by
        cases hcc : st.urls_to_crawl with
        | nil =>
          rw [crawlGuard, hcc] at hg
          simp at hg
        | cons a l =>
          rw [crawlGuard, hcc] at hg
          simp at hg
          exact hg
      have hb := crawlStep_crawled_le u p b st
      cases hstep : crawlStep u p b st with
      | ok s =>
        apply ih s
        rw [hstep] at hb
        simp only [StepResult.state] at hb
        omega
      | crash s =>
        rw [hstep] at hb
        simp only [StepResult.state] at hb ⊢
        omega
    · rw [if_neg hg]
      exact h


/-! ### C6 support: splitting and joining -/

theorem splitFirstChar_eq_none (c : Char) (l : List Char) (h : ¬ c ∈ l) :
    splitFirstChar c l = none := by
  induction l with
  | nil => rfl
  | cons a rest ih =>
    have ha : ¬ (a == c) = true := by
      simp only [beq_iff_eq]
      intro he
      exact h (by simp [he])
    simp only [splitFirstChar, if_neg ha,
      ih (fun hm => h (List.mem_cons_of_mem a hm)), Option.map_none']

theorem not_mem_of_splitFirstChar_none (c : Char) (l : List Char)
    (h : splitFirstChar c l = none) : ¬ c ∈ l := by
  induction l with
  | nil => simp
  | cons a rest ih =>
    simp only [splitFirstChar] at h
    by_cases ha : (a == c) = true
    · rw [if_pos ha] at h
      cases h
    · rw [if_neg ha] at h
      have hrest := ih (Option.map_eq_none'.mp h)
      intro hm
      rcases List.mem_cons.mp hm with he | hm2
      · exact ha (by simp [he])
      · exact hrest hm2

theorem splitFirstChar_eq_some (c : Char) (l a b : List Char)
    (h : splitFirstChar c l = some (a, b)) : l = a ++ c :: b ∧ ¬ c ∈ a := by
  induction l generalizing a b with
  | nil => exact absurd h (by simp [splitFirstChar])
  | cons x rest ih =>
    simp only [splitFirstChar] at h
    by_cases hx : (x == c) = true
    · rw [if_pos hx] at h
      simp only [Option.some.injEq, Prod.mk.injEq] at h
      obtain ⟨rfl, rfl⟩ := h
      have : x = c := by simpa using hx
      subst this
      exact ⟨rfl, by simp⟩
    · rw [if_neg hx] at h
      cases hsp : splitFirstChar c rest with
      | none => rw [hsp] at h; cases h
      | some p =>
        obtain ⟨p1, p2⟩ := p
        rw [hsp] at h
        simp only [Option.map_some', Option.some.injEq, Prod.mk.injEq] at h
        obtain ⟨rfl, rfl⟩ := h
        obtain ⟨he, hnm⟩ := ih p1 p2 hsp
        constructor
        · rw [he]; rfl
        · intro hm
          rcases List.mem_cons.mp hm with he2 | hm2
          · exact hx (by simp [he2])
          · exact hnm hm2

theorem splitFirstChar_append (c : Char) (a b : List Char) (h : ¬ c ∈ a) :
    splitFirstChar c (a ++ c :: b) = some (a, b) := by
  induction a with
  | nil => simp [splitFirstChar]
  | cons x xs ih =>
    have hx : ¬ (x == c) = true := by
      simp only [beq_iff_eq]
      intro he
      exact h (by simp [he])
    simp only [List.cons_append, splitFirstChar, List.append_eq, if_neg hx,
      ih (fun hm => h (List.mem_cons_of_mem x hm)), Option.map_some']

theorem splitAllChar_not_mem (c : Char) (f : List Char) (h : ¬ c ∈ f) :
    splitAllChar c f = [f] := by
  induction f with
  | nil => rfl
  | cons x xs ih =>
    have hx : ¬ (x == c) = true := by
      simp only [beq_iff_eq]
      intro he
      exact h (by simp [he])
    simp only [splitAllChar, if_neg hx, ih (fun hm => h (List.mem_cons_of_mem x hm))]

theorem splitAllChar_append (c : Char) (f r : List Char) (h : ¬ c ∈ f) :
    splitAllChar c (f ++ c :: r) = f :: splitAllChar c r := by
  induction f with
  | nil =>
    simp only [List.nil_append, splitAllChar, beq_self_eq_true, if_pos]
  | cons x xs ih =>
    have hx : ¬ (x == c) = true := by
      simp only [beq_iff_eq]
      intro he
      exact h (by simp [he])
    simp only [List.cons_append, splitAllChar, List.append_eq, if_neg hx,
      ih (fun hm => h (List.mem_cons_of_mem x hm))]

theorem splitAllChar_joinChar (c : Char) (fields : List (List Char))
    (hne : fields ≠ []) (h : ∀ f ∈ fields, ¬ c ∈ f) :
    splitAllChar c (joinChar c fields) = fields := by
  induction fields with
  | nil => exact absurd rfl hne
  | cons f rest ih =>
    cases rest with
    | nil => exact splitAllChar_not_mem c f (h f (by simp))
    | cons g gs =>
      have hj : joinChar c (f :: g :: gs) = f ++ c :: joinChar c (g :: gs) := rfl
      rw [hj, splitAllChar_append c f _ (h f (by simp)),
        ih (by simp) (fun x hx => h x (by simp [hx]))]

theorem mem_splitAllChar (c : Char) (l f : List Char) (hf : f ∈ splitAllChar c l) :
    ∀ x ∈ f, x ∈ l ∧ x ≠ c := by
  induction l generalizing f with
  | nil =>
    simp only [splitAllChar, List.mem_singleton] at hf
    subst hf
    intro x hx
    cases hx
  | cons a rest ih =>
    simp only [splitAllChar] at hf
    by_cases ha : (a == c) = true
    · rw [if_pos ha] at hf
      rcases List.mem_cons.mp hf with h1 | h2
      · subst h1; intro x hx; cases hx
      · intro x hx
        obtain ⟨h3, h4⟩ := ih f h2 x hx
        exact ⟨List.mem_cons_of_mem a h3, h4⟩
    · rw [if_neg ha] at hf
      cases hr : splitAllChar c rest with
      | nil =>
        rw [hr] at hf
        simp only [List.mem_singleton] at hf
        subst hf
        intro x hx
        simp only [List.mem_singleton] at hx
        subst hx
        exact ⟨List.mem_cons_self _ _, fun he => ha (by simp [he])⟩
      | cons h0 t =>
        rw [hr] at hf
        rcases List.mem_cons.mp hf with h1 | h2
        · subst h1
          intro x hx
          rcases List.mem_cons.mp hx with rfl | hx2
          · exact ⟨List.mem_cons_self _ _, fun he => ha (by simp [he])⟩
          · have hh0 : h0 ∈ splitAllChar c rest := by
              rw [hr]; exact List.mem_cons_self _ _
            obtain ⟨h3, h4⟩ := ih h0 hh0 x hx2
            exact ⟨List.mem_cons_of_mem a h3, h4⟩
        · have hft : f ∈ splitAllChar c rest := by
            rw [hr]; exact List.mem_cons_of_mem h0 h2
          intro x hx
          obtain ⟨h3, h4⟩ := ih f hft x hx
          exact ⟨List.mem_cons_of_mem a h3, h4⟩

theorem mem_joinChar (c : Char) (fields : List (List Char)) (x : Char)
    (h : x ∈ joinChar c fields) : x = c ∨ ∃ f ∈ fields, x ∈ f := by
  induction fields with
  | nil => cases h
  | cons f rest ih =>
    cases rest with
    | nil => right; exact ⟨f, by simp, h⟩
    | cons g gs =>
      have hj : joinChar c (f :: g :: gs) = f ++ c :: joinChar c (g :: gs) := rfl
      rw [hj] at h
      rcases List.mem_append.mp h with h1 | h2
      · right; exact ⟨f, by simp, h1⟩
      · rcases List.mem_cons.mp h2 with rfl | h3
        · left; rfl
        · rcases ih h3 with h4 | ⟨f2, hf2, hx⟩
          · left; exact h4
          · right; exact ⟨f2, by simp [hf2], hx⟩

/-! ### C6 support: decoding as the identity, lowercase stability -/

theorem unquotePercent_cons_ne (c : Char) (l : List Char) (h : ¬ c = '%') :
    unquotePercent (c :: l) = c :: unquotePercent l := by
  conv_lhs => unfold unquotePercent
  split
  · next heq => cases heq
  · next h1 h2 rest2 heq =>
    exact absurd (List.cons.inj heq).1 h
  · next x rest hnc heq =>
    rw [← (List.cons.inj heq).1, ← (List.cons.inj heq).2]

theorem unquotePercent_id (l : List Char) (h : ¬ '%' ∈ l) :
    unquotePercent l = l := by
  induction l with
  | nil => rfl
  | cons c rest ih =>
    rw [unquotePercent_cons_ne c rest (fun he => h (by simp [he])),
      ih (fun hm => h (List.mem_cons_of_mem c hm))]

theorem plusMap_id (l : List Char) (h : ¬ '+' ∈ l) :
    l.map (fun c => if c == '+' then ' ' else c) = l := by
  induction l with
  | nil => rfl
  | cons c rest ih =>
    have hc : ¬ (c == '+') = true := by
      simp only [beq_iff_eq]
      intro he
      exact h (by simp [he])
    simp only [List.map_cons, if_neg hc,
      ih (fun hm => h (List.mem_cons_of_mem c hm))]

theorem unquote_plus_id (l : List Char) (h1 : ¬ '%' ∈ l) (h2 : ¬ '+' ∈ l) :
    unquote_plus l = l := by
  unfold unquote_plus
  rw [plusMap_id l h2, unquotePercent_id l h1]

theorem lowerChar_eq_low (t c : Char) (ht : t.toNat < 97) (h : lowerChar c = t) :
    c = t := by
  by_cases hc : 65 ≤ c.toNat ∧ c.toNat ≤ 90
  · exfalso
    have hn := lowerChar_toNat c
    rw [if_pos hc, h] at hn
    omega
  · rw [lowerChar_of_not_upper c hc] at h
    exact h

theorem not_mem_lowerStr (t : Char) (l : List Char) (ht : t.toNat < 97)
    (h : ¬ t ∈ l) : ¬ t ∈ lowerStr l := by
  intro hm
  obtain ⟨c, hc, he⟩ := List.mem_map.mp hm
  obtain rfl := lowerChar_eq_low t c ht he
  exact h hc

theorem lowerChar_of_mem_lowerStr (l : List Char) (c : Char)
    (h : c ∈ lowerStr l) : lowerChar c = c := by
  obtain ⟨a, _, he⟩ := List.mem_map.mp h
  rw [← he]
  exact lowerChar_idem a

theorem lowerStr_eq_self (l : List Char) (h : ∀ c ∈ l, lowerChar c = c) :
    lowerStr l = l := by
  induction l with
  | nil => rfl
  | cons c rest ih =>
    simp only [lowerStr, List.map_cons]
    rw [h c (List.mem_cons_self c rest)]
    have := ih (fun x hx => h x (List.mem_cons_of_mem c hx))
    simp only [lowerStr] at this
    rw [this]

theorem schemeChar_lowerChar (c : Char) (h : schemeChar c = true) :
    schemeChar (lowerChar c) = true := by
  by_cases hu : 65 ≤ c.toNat ∧ c.toNat ≤ 90
  · have ht : (lowerChar c).toNat = c.toNat + 32 := by
      rw [lowerChar_toNat, if_pos hu]
    simp only [schemeChar, isAsciiAlphaB, isDigitB, Bool.or_eq_true,
      decide_eq_true_eq, beq_iff_eq, ht]
    left; left; left; left
    right
    omega
  · rw [lowerChar_of_not_upper c hu]
    exact h

/-! ### C6 support: trailing-slash stripping and `replace` -/

theorem rstripSlash_pre (l : List Char) : rstripSlash l <+: l := by
  have h1 : l.reverse.dropWhile (fun c => c == '/') <:+ l.reverse :=
    List.dropWhile_suffix _
  have h2 := List.reverse_prefix.mpr h1
  rw [List.reverse_reverse] at h2
  exact h2

theorem prefix_head (a : α) (l1 l2 : List α) (h : l1 <+: a :: l2) :
    l1 = [] ∨ ∃ t, l1 = a :: t := by
  cases l1 with
  | nil => left; rfl
  | cons x xs =>
    right
    obtain ⟨r, hr⟩ := h
    simp only [List.cons_append] at hr
    exact ⟨xs, by rw [(List.cons.inj hr).1]⟩

theorem rstripSlash_lower_stable (x : List Char) :
    rstripSlash (lowerStr (rstripSlash x)) = lowerStr (rstripSlash x) := by
  cases hz : x.reverse.dropWhile (fun c => c == '/') with
  | nil =>
    simp [rstripSlash, lowerStr, hz]
  | cons a t =>
    have ha : (a == '/') = false := by
      have hh := List.head?_dropWhile_not (fun c => c == '/') x.reverse
      rw [hz] at hh
      simpa using hh
    have ha2 : (lowerChar a == '/') = false := by
      rw [beq_eq_false_iff_ne]
      intro he
      have : a = '/' := lowerChar_eq_low '/' a (by decide) he
      rw [beq_eq_false_iff_ne] at ha
      exact ha this
    show ((lowerStr (rstripSlash x)).reverse.dropWhile (fun c => c == '/')).reverse
      = lowerStr (rstripSlash x)
    have hr : (lowerStr (rstripSlash x)).reverse = lowerChar a :: lowerStr t := by
      show ((rstripSlash x).map lowerChar).reverse = lowerChar a :: lowerStr t
      rw [← List.map_reverse]
      show ((x.reverse.dropWhile (fun c => c == '/')).reverse.reverse).map lowerChar
        = lowerChar a :: lowerStr t
      rw [List.reverse_reverse, hz]
      rfl
    rw [hr, List.dropWhile_cons]
    rw [ha2]
    simp only [Bool.false_eq_true, if_false]
    rw [← hr, List.reverse_reverse]

theorem mem_replaceFuel_nilrep (pat : List Char) (fuel : Nat) (l : List Char)
    (x : Char) (h : x ∈ replaceFuel pat [] fuel l) : x ∈ l := by
  induction fuel generalizing l with
  | zero =>
    cases l with
    | nil => cases h
    | cons a r => exact h
  | succ n ih =>
    cases l with
    | nil => cases h
    | cons a rest =>
      simp only [replaceFuel] at h
      by_cases hp : pat ≠ [] ∧ pat.isPrefixOf (a :: rest)
      · rw [if_pos hp] at h
        simp only [List.nil_append] at h
        exact List.drop_subset _ _ (ih _ h)
      · rw [if_neg hp] at h
        rcases List.mem_cons.mp h with rfl | h2
        · exact List.mem_cons_self _ _
        · exact List.mem_cons_of_mem _ (ih _ h2)

theorem replaceFuel_id_of_not_contains (pat : List Char) (fuel : Nat)
    (l : List Char) (h : containsSub pat l = false) :
    replaceFuel pat [] fuel l = l := by
  induction fuel generalizing l with
  | zero =>
    cases l with
    | nil => rfl
    | cons a r => rfl
  | succ n ih =>
    cases l with
    | nil => rfl
    | cons a rest =>
      simp only [containsSub, Bool.or_eq_false_iff] at h
      obtain ⟨hpre, hrest⟩ := h
      simp only [replaceFuel]
      rw [if_neg (fun hc => by rw [hc.2] at hpre; cases hpre), ih rest hrest]

theorem hasChar_eq_false_iff (c : Char) (l : List Char) :
    hasChar c l = false ↔ ¬ c ∈ l := by
  unfold hasChar
  constructor
  · intro h hm
    have hx : l.any (fun a => a == c) = true :=
      List.any_eq_true.mpr ⟨c, hm, beq_self_eq_true c⟩
    rw [h] at hx
    cases hx
  · intro h
    cases ha : l.any (fun a => a == c) with
    | false => rfl
    | true =>
      obtain ⟨a, hm, he⟩ := List.any_eq_true.mp ha
      rw [beq_iff_eq] at he
      exact absurd (he ▸ hm) h

/-! ### C6 support: shape of the parsed components -/

theorem take_sub_append (x b : List Char) :
    (x ++ b).take ((x ++ b).length - b.length) = x := by
  have h : (x ++ b).length - b.length = x.length := by
    simp [List.length_append]
  rw [h]
  exact List.take_left x b

theorem splitparams_fst_pre (p : List Char) : (splitparams p).1 <+: p := by
  simp only [splitparams]
  by_cases hs : hasChar '/' p = true
  · rw [if_pos hs]
    have hdec : p = (p.reverse.dropWhile (fun c => !(c == '/'))).reverse ++
        (p.reverse.takeWhile (fun c => !(c == '/'))).reverse := by
      rw [← List.reverse_append, List.takeWhile_append_dropWhile, List.reverse_reverse]
    cases hb : splitFirstChar ';' ((p.reverse.takeWhile (fun c => !(c == '/'))).reverse) with
    | none =>
      exact List.prefix_refl p
    | some b12 =>
      obtain ⟨b1, b2⟩ := b12
      dsimp only
      obtain ⟨he, hnm⟩ := splitFirstChar_eq_some ';' _ b1 b2 hb
      generalize hX : (p.reverse.dropWhile (fun c => !(c == '/'))).reverse = x at hdec
      generalize hB : (p.reverse.takeWhile (fun c => !(c == '/'))).reverse = b at hdec he ⊢
      subst hdec
      rw [take_sub_append, he]
      exact ⟨';' :: b2, by simp [List.append_assoc]⟩
  · rw [if_neg hs]
    cases hb : splitFirstChar ';' p with
    | none => exact List.prefix_refl p
    | some xy =>
      obtain ⟨x, y⟩ := xy
      obtain ⟨he, hnm⟩ := splitFirstChar_eq_some ';' p x y hb
      exact ⟨';' :: y, he.symm⟩

theorem splitnetloc_fst_prop (r : List Char) :
    ∀ c ∈ (splitnetloc r).1, (c == '/' || c == '?' || c == '#') = false := by
  intro c hc
  simp only [splitnetloc] at hc
  have h := List.mem_takeWhile_imp hc
  simpa using h

theorem splitnetloc_snd_shape (r : List Char) :
    (splitnetloc r).2 = [] ∨ ∃ c t, (splitnetloc r).2 = c :: t ∧
      (c == '/' || c == '?' || c == '#') = true := by
  cases hz : (splitnetloc r).2 with
  | nil => left; rfl
  | cons c t =>
    right
    refine ⟨c, t, rfl, ?_⟩
    have hz2 : r.dropWhile (fun c => !(c == '/' || c == '?' || c == '#')) = c :: t := hz
    have hh := List.head?_dropWhile_not (fun c => !(c == '/' || c == '?' || c == '#')) r
    rw [hz2] at hh
    have hb : ¬ c = '/' → ¬ c = '?' → c = '#' := by simpa using hh
    simp only [Bool.or_eq_true, beq_iff_eq]
    tauto

theorem splitnetloc_append_of_prop (d r : List Char)
    (hd : ∀ c ∈ d, (c == '/' || c == '?' || c == '#') = false)
    (hr : r = [] ∨ ∃ c t, r = c :: t ∧ (c == '/' || c == '?' || c == '#') = true) :
    splitnetloc (d ++ r) = (d, r) := by
  have hdt : d.takeWhile (fun c => !(c == '/' || c == '?' || c == '#')) = d :=
    List.takeWhile_eq_self_iff.mpr (by intro x hx; simp [hd x hx])
  have hdd : d.dropWhile (fun c => !(c == '/' || c == '?' || c == '#')) = [] :=
    List.dropWhile_eq_nil_iff.mpr (by intro x hx; simp [hd x hx])
  have hrt : r.takeWhile (fun c => !(c == '/' || c == '?' || c == '#')) = [] := by
    rcases hr with rfl | ⟨c, t, rfl, hc⟩
    · rfl
    · rw [List.takeWhile_cons]
      simp [hc]
  have hrd : r.dropWhile (fun c => !(c == '/' || c == '?' || c == '#')) = r := by
    rcases hr with rfl | ⟨c, t, rfl, hc⟩
    · rfl
    · rw [List.dropWhile_cons]
      simp [hc]
  simp only [splitnetloc, List.takeWhile_append, List.dropWhile_append, hdt, hdd,
    hrt, hrd]
  simp

theorem urlparseList_eq_afterNetloc (u : List Char) :
    urlparseList u = afterNetloc (extractScheme u).1
      (match (extractScheme u).2 with
       | '/' :: '/' :: rest => splitnetloc rest
       | other => ([], other)) := rfl

theorem urlparseList_scheme (u : List Char) :
    (urlparseList u).scheme = (extractScheme u).1 := rfl

theorem afterNetloc_scheme (s : List Char) (nl : List Char × List Char) :
    (afterNetloc s nl).scheme = s := rfl

theorem afterNetloc_netloc (s : List Char) (nl : List Char × List Char) :
    (afterNetloc s nl).netloc = nl.1 := rfl

theorem assembleStage (nl2 f1 p1 q2 : List Char)
    (hf_pre : f1 <+: nl2) (hf_nm : ¬ '#' ∈ f1)
    (hp_pre : p1 <+: f1) (hp_nq : ¬ '?' ∈ p1) (hq_sub : ∀ x ∈ q2, x ∈ f1) :
    (if hasChar ';' p1 = true then splitparams p1 else (p1, [])).1 <+: nl2 ∧
    ¬ '?' ∈ (if hasChar ';' p1 = true then splitparams p1 else (p1, [])).1 ∧
    ¬ '#' ∈ (if hasChar ';' p1 = true then splitparams p1 else (p1, [])).1 ∧
    ¬ '#' ∈ q2 := by
  have hp : (if hasChar ';' p1 = true then splitparams p1 else (p1, [])).1 <+: p1 := by
    by_cases hsc : hasChar ';' p1 = true
    · rw [if_pos hsc]; exact splitparams_fst_pre p1
    · rw [if_neg hsc]
  refine ⟨hp.trans (hp_pre.trans hf_pre), ?_, ?_, ?_⟩
  · exact fun hm => hp_nq (hp.subset hm)
  · exact fun hm => hf_nm (hp_pre.subset (hp.subset hm))
  · exact fun hm => hf_nm (hq_sub '#' hm)

theorem afterNetloc_facts (s : List Char) (nl : List Char × List Char) :
    (afterNetloc s nl).path <+: nl.2 ∧
    ¬ '?' ∈ (afterNetloc s nl).path ∧
    ¬ '#' ∈ (afterNetloc s nl).path ∧
    ¬ '#' ∈ (afterNetloc s nl).query := by
  simp only [afterNetloc]
  cases hc : splitFirstChar '#' nl.2 with
  | none =>
    have hnm := not_mem_of_splitFirstChar_none '#' nl.2 hc
    cases hq : splitFirstChar '?' nl.2 with
    | none =>
      have hnq := not_mem_of_splitFirstChar_none '?' nl.2 hq
      exact assembleStage nl.2 nl.2 nl.2 [] (List.prefix_refl _) hnm
        (List.prefix_refl _) hnq (by intro x hx; cases hx)
    | some ab =>
      obtain ⟨a, b⟩ := ab
      obtain ⟨he, hna⟩ := splitFirstChar_eq_some '?' nl.2 a b hq
      exact assembleStage nl.2 nl.2 a b (List.prefix_refl _) hnm
        ⟨'?' :: b, he.symm⟩ hna
        (by intro x hx; rw [he]; exact List.mem_append.mpr (Or.inr (List.mem_cons_of_mem _ hx)))
  | some ab0 =>
    obtain ⟨f1, f2⟩ := ab0
    obtain ⟨he0, hnm⟩ := splitFirstChar_eq_some '#' nl.2 f1 f2 hc
    have hf_pre : f1 <+: nl.2 := ⟨'#' :: f2, he0.symm⟩
    cases hq : splitFirstChar '?' f1 with
    | none =>
      have hnq := not_mem_of_splitFirstChar_none '?' f1 hq
      exact assembleStage nl.2 f1 f1 [] hf_pre hnm (List.prefix_refl _) hnq
        (by intro x hx; cases hx)
    | some ab =>
      obtain ⟨a, b⟩ := ab
      obtain ⟨he, hna⟩ := splitFirstChar_eq_some '?' f1 a b hq
      exact assembleStage nl.2 f1 a b hf_pre hnm ⟨'?' :: b, he.symm⟩ hna
        (by intro x hx; rw [he]; exact List.mem_append.mpr (Or.inr (List.mem_cons_of_mem _ hx)))

theorem urlparseList_netloc_case (u : List Char) :
    (urlparseList u).netloc = [] ∨
    ∃ rest, urlparseList u = afterNetloc (extractScheme u).1 (splitnetloc rest) := by
  rw [urlparseList_eq_afterNetloc]
  split
  · rename_i rest heq
    right
    exact ⟨rest, rfl⟩
  · next h =>
    left
    rw [afterNetloc_netloc]

theorem extractScheme_fst_facts (u : List Char) :
    (extractScheme u).1 = [] ∨
    ((extractScheme u).1 ≠ [] ∧ lowerStr (extractScheme u).1 = (extractScheme u).1 ∧
     (∀ c ∈ (extractScheme u).1, schemeChar c = true) ∧
     (∀ c t, (extractScheme u).1 = c :: t → isAsciiAlphaB c = true)) := by
  unfold extractScheme
  cases hsp : splitFirstChar ':' u with
  | none => left; rfl
  | some pr =>
    obtain ⟨pre, post⟩ := pr
    cases pre with
    | nil => left; rfl
    | cons c0 t0 =>
      dsimp only
      by_cases hg : (isAsciiAlphaB c0 && (c0 :: t0).all schemeChar) = true
      · rw [if_pos hg]
        right
        rw [Bool.and_eq_true] at hg
        refine ⟨by simp [lowerStr], lowerStr_idem _, ?_, ?_⟩
        · intro c hcm
          obtain ⟨a, ham, hae⟩ := List.mem_map.mp hcm
          rw [← hae]
          exact schemeChar_lowerChar a (List.all_eq_true.mp hg.2 a ham)
        · intro c t hct
          have : lowerChar c0 = c := by
            have := congrArg (fun l => l.headD ' ') hct
            simpa [lowerStr] using this
          rw [← this]
          exact isAsciiAlphaB_lowerChar c0 hg.1
      · rw [if_neg hg]
        left
        rfl

/-! ### C6 support: reparsing a normalized URL -/

theorem afterNetloc_compute_noq (s n r : List Char)
    (hh : splitFirstChar '#' r = none)
    (hq : splitFirstChar '?' r = none)
    (hs : hasChar ';' r = false) :
    afterNetloc s (n, r) = ⟨s, n, r, [], [], []⟩ := by
  simp only [afterNetloc, hh, hq, hs]
  simp

theorem afterNetloc_compute_withq (s n p q : List Char)
    (hh : splitFirstChar '#' (p ++ '?' :: q) = none)
    (hq : splitFirstChar '?' (p ++ '?' :: q) = some (p, q))
    (hs : hasChar ';' p = false) :
    afterNetloc s (n, p ++ '?' :: q) = ⟨s, n, p, [], q, []⟩ := by
  simp only [afterNetloc, hh, hq, hs]
  simp

theorem extractScheme_append (s T : List Char)
    (hs_ne : s ≠ [])
    (hs_head : ∀ c t, s = c :: t → isAsciiAlphaB c = true)
    (hs_all : ∀ c ∈ s, schemeChar c = true)
    (hs_low : lowerStr s = s) :
    extractScheme (s ++ ':' :: T) = (s, T) := by
  have hcolon : ¬ ':' ∈ s := by
    intro hm
    have := hs_all ':' hm
    have hfalse : schemeChar ':' = false := by decide
    rw [hfalse] at this
    cases this
  unfold extractScheme
  rw [splitFirstChar_append ':' s T hcolon]
  cases s with
  | nil => exact absurd rfl hs_ne
  | cons c t =>
    dsimp only
    rw [if_pos, hs_low]
    rw [Bool.and_eq_true]
    exact ⟨hs_head c t rfl, List.all_eq_true.mpr (fun a ha => hs_all a ha)⟩

theorem urlparseList_reconstruct_noq (s d p : List Char)
    (hs_ne : s ≠ [])
    (hs_head : ∀ c t, s = c :: t → isAsciiAlphaB c = true)
    (hs_all : ∀ c ∈ s, schemeChar c = true)
    (hs_low : lowerStr s = s)
    (hd : ∀ c ∈ d, (c == '/' || c == '?' || c == '#') = false)
    (hp_head : p = [] ∨ ∃ t, p = '/' :: t)
    (hp1 : ¬ '?' ∈ p) (hp2 : ¬ '#' ∈ p) (hp3 : hasChar ';' p = false) :
    urlparseList (s ++ ':' :: '/' :: '/' :: (d ++ p)) = ⟨s, d, p, [], [], []⟩ := by
  have hes : extractScheme (s ++ ':' :: '/' :: '/' :: (d ++ p)) =
      (s, '/' :: '/' :: (d ++ p)) :=
    extractScheme_append s _ hs_ne hs_head hs_all hs_low
  rw [urlparseList_eq_afterNetloc, hes]
  dsimp only
  have htail : p = [] ∨ ∃ c t, p = c :: t ∧ (c == '/' || c == '?' || c == '#') = true := by
    rcases hp_head with rfl | ⟨t, rfl⟩
    · left; rfl
    · right; exact ⟨'/', t, rfl, by decide⟩
  show afterNetloc s (splitnetloc (d ++ p)) = (⟨s, d, p, [], [], []⟩ : UrlParts)
  rw [splitnetloc_append_of_prop d p hd htail]
  exact afterNetloc_compute_noq s d p
    (splitFirstChar_eq_none '#' p hp2) (splitFirstChar_eq_none '?' p hp1) hp3

theorem urlparseList_reconstruct_withq (s d p q : List Char)
    (hs_ne : s ≠ [])
    (hs_head : ∀ c t, s = c :: t → isAsciiAlphaB c = true)
    (hs_all : ∀ c ∈ s, schemeChar c = true)
    (hs_low : lowerStr s = s)
    (hd : ∀ c ∈ d, (c == '/' || c == '?' || c == '#') = false)
    (hp_head : p = [] ∨ ∃ t, p = '/' :: t)
    (hp1 : ¬ '?' ∈ p) (hp2 : ¬ '#' ∈ p) (hp3 : hasChar ';' p = false)
    (hnq : ¬ '#' ∈ q) :
    urlparseList (s ++ ':' :: '/' :: '/' :: (d ++ (p ++ '?' :: q))) =
      ⟨s, d, p, [], q, []⟩ := by
  have hes : extractScheme (s ++ ':' :: '/' :: '/' :: (d ++ (p ++ '?' :: q))) =
      (s, '/' :: '/' :: (d ++ (p ++ '?' :: q))) :=
    extractScheme_append s _ hs_ne hs_head hs_all hs_low
  rw [urlparseList_eq_afterNetloc, hes]
  dsimp only
  have htail : (p ++ '?' :: q) = [] ∨
      ∃ c t, (p ++ '?' :: q) = c :: t ∧ (c == '/' || c == '?' || c == '#') = true := by
    rcases hp_head with rfl | ⟨t, rfl⟩
    · right; exact ⟨'?', q, rfl, by decide⟩
    · right; exact ⟨'/', t ++ '?' :: q, rfl, by decide⟩
  show afterNetloc s (splitnetloc (d ++ (p ++ '?' :: q))) = (⟨s, d, p, [], q, []⟩ : UrlParts)
  rw [splitnetloc_append_of_prop d _ hd htail]
  have hh : splitFirstChar '#' (p ++ '?' :: q) = none := by
    apply splitFirstChar_eq_none
    intro hm
    rcases List.mem_append.mp hm with h1 | h2
    · exact hp2 h1
    · rcases List.mem_cons.mp h2 with he | h3
      · cases he
      · exact hnq h3
  exact afterNetloc_compute_withq s d p q hh
    (splitFirstChar_append '?' p q hp1) hp3

/-! ### C6 support: ordering of query pairs -/

theorem strLe_total (a b : List Char) : strLe a b = true ∨ strLe b a = true := by
  unfold strLe
  rcases strLt_trichotomy a b with h | h | h
  · left; simp [h]
  · right; simp [h]
  · left
    have hb : a == b := beq_iff_eq.mpr h
    simp [hb]

theorem strLe_trans (a b c : List Char) (h1 : strLe a b = true)
    (h2 : strLe b c = true) : strLe a c = true := by
  unfold strLe at h1 h2 ⊢
  rw [Bool.or_eq_true] at h1 h2 ⊢
  rcases h1 with g1 | g1 <;> rcases h2 with g2 | g2
  · exact Or.inl (strLt_trans _ _ _ g1 g2)
  · rw [beq_iff_eq] at g2
    rw [← g2]
    exact Or.inl g1
  · rw [beq_iff_eq] at g1
    rw [g1]
    exact Or.inl g2
  · rw [beq_iff_eq] at g1 g2
    rw [g1, g2]
    simp

theorem pairLe_total (a b : List Char × List Char) :
    pairLe a b = true ∨ pairLe b a = true := by
  unfold pairLe
  rcases strLt_trichotomy a.1 b.1 with h | h | h
  · left; simp [h]
  · right; simp [h]
  · rcases strLe_total a.2 b.2 with h2 | h2
    · left; simp [h, h2]
    · right; simp [h, h2]

theorem pairLe_trans (a b c : List Char × List Char) (h1 : pairLe a b = true)
    (h2 : pairLe b c = true) : pairLe a c = true := by
  unfold pairLe at h1 h2 ⊢
  rw [Bool.or_eq_true] at h1 h2 ⊢
  rcases h1 with g1 | g1 <;> rcases h2 with g2 | g2
  · exact Or.inl (strLt_trans _ _ _ g1 g2)
  · rw [Bool.and_eq_true, beq_iff_eq] at g2
    rw [← g2.1]
    exact Or.inl g1
  · rw [Bool.and_eq_true, beq_iff_eq] at g1
    rw [g1.1]
    exact Or.inl g2
  · rw [Bool.and_eq_true, beq_iff_eq] at g1 g2
    right
    rw [Bool.and_eq_true, beq_iff_eq]
    exact ⟨g1.1.trans g2.1, strLe_trans _ _ _ g1.2 g2.2⟩

/-! ### C6 support: the query dictionary fold -/

theorem parse_qsl_facts (qs : List Char) (hq1 : ¬ '%' ∈ qs) (hq2 : ¬ '+' ∈ qs)
    (n v : List Char) (h : (n, v) ∈ parse_qsl qs) :
    v ≠ [] ∧ ¬ '=' ∈ n ∧
    (∀ x ∈ n, x ∈ qs ∧ x ≠ '&') ∧ (∀ x ∈ v, x ∈ qs ∧ x ≠ '&') := by
  unfold parse_qsl at h
  obtain ⟨field, hfield, hmap⟩ := List.mem_filterMap.mp h
  have hfc : ∀ x ∈ field, x ∈ qs ∧ x ≠ '&' := mem_splitAllChar '&' qs field hfield
  by_cases hfe : field = []
  · rw [if_pos hfe] at hmap; cases hmap
  · rw [if_neg hfe] at hmap
    cases hsp : splitFirstChar '=' field with
    | none => rw [hsp] at hmap; cases hmap
    | some nv =>
      obtain ⟨n0, v0⟩ := nv
      rw [hsp] at hmap
      dsimp only at hmap
      by_cases hv0 : v0 = []
      · rw [if_pos hv0] at hmap; cases hmap
      · rw [if_neg hv0] at hmap
        obtain ⟨hfeq, hne⟩ := splitFirstChar_eq_some '=' field n0 v0 hsp
        have hn0sub : ∀ x ∈ n0, x ∈ field := by
          intro x hx
          rw [hfeq]
          exact List.mem_append.mpr (Or.inl hx)
        have hv0sub : ∀ x ∈ v0, x ∈ field := by
          intro x hx
          rw [hfeq]
          exact List.mem_append.mpr (Or.inr (List.mem_cons_of_mem _ hx))
        have hn0d : unquote_plus n0 = n0 :=
          unquote_plus_id n0 (fun hm => hq1 (hfc '%' (hn0sub '%' hm)).1)
            (fun hm => hq2 (hfc '+' (hn0sub '+' hm)).1)
        have hv0d : unquote_plus v0 = v0 :=
          unquote_plus_id v0 (fun hm => hq1 (hfc '%' (hv0sub '%' hm)).1)
            (fun hm => hq2 (hfc '+' (hv0sub '+' hm)).1)
        rw [hn0d, hv0d] at hmap
        simp only [Option.some.injEq, Prod.mk.injEq] at hmap
        obtain ⟨rfl, rfl⟩ := hmap
        exact ⟨hv0, hne, fun x hx => hfc x (hn0sub x hx),
          fun x hx => hfc x (hv0sub x hx)⟩

theorem addQsEntry_invariant (P : List Char → Prop) (Q : List Char → Prop)
    (d : List (List Char × List (List Char))) (n v : List Char)
    (hd : ∀ kv ∈ d, P kv.1 ∧ kv.2 ≠ [] ∧ ∀ w ∈ kv.2, Q w)
    (hn : P n) (hv : Q v) :
    ∀ kv ∈ addQsEntry d n v, P kv.1 ∧ kv.2 ≠ [] ∧ ∀ w ∈ kv.2, Q w := by
  intro kv hkv
  unfold addQsEntry at hkv
  by_cases hex : d.any (fun kv => kv.1 == n) = true
  · rw [if_pos hex] at hkv
    obtain ⟨kv0, hkv0, he⟩ := List.mem_map.mp hkv
    by_cases hk : (kv0.1 == n) = true
    · rw [if_pos hk] at he
      obtain ⟨hP, hne, hQ⟩ := hd kv0 hkv0
      rw [← he]
      refine ⟨hP, by simp, ?_⟩
      intro w hw
      rcases List.mem_append.mp hw with h1 | h2
      · exact hQ w h1
      · rw [List.mem_singleton.mp h2]
        exact hv
    · rw [if_neg hk] at he
      rw [← he]
      exact hd kv0 hkv0
  · rw [if_neg hex] at hkv
    rcases List.mem_append.mp hkv with h1 | h2
    · exact hd kv h1
    · rw [List.mem_singleton.mp h2]
      exact ⟨hn, by simp, fun w hw => by rw [List.mem_singleton.mp hw]; exact hv⟩

theorem foldl_addQsEntry_invariant (P : List Char → Prop) (Q : List Char → Prop)
    (qsl : List (List Char × List Char)) (acc : List (List Char × List (List Char)))
    (hacc : ∀ kv ∈ acc, P kv.1 ∧ kv.2 ≠ [] ∧ ∀ w ∈ kv.2, Q w)
    (hqsl : ∀ nv ∈ qsl, P nv.1 ∧ Q nv.2) :
    ∀ kv ∈ qsl.foldl (fun d nv => addQsEntry d nv.1 nv.2) acc,
      P kv.1 ∧ kv.2 ≠ [] ∧ ∀ w ∈ kv.2, Q w := by
  induction qsl generalizing acc with
  | nil => exact hacc
  | cons nv rest ih =>
    intro kv hkv
    refine ih (addQsEntry acc nv.1 nv.2) ?_ (fun x hx => hqsl x (List.mem_cons_of_mem _ hx)) kv hkv
    exact addQsEntry_invariant P Q acc nv.1 nv.2 hacc
      (hqsl nv (List.mem_cons_self _ _)).1 (hqsl nv (List.mem_cons_self _ _)).2

theorem parse_qs_facts (qs : List Char) (hq1 : ¬ '%' ∈ qs) (hq2 : ¬ '+' ∈ qs) :
    ∀ kv ∈ parse_qs qs,
      (¬ '=' ∈ kv.1 ∧ ∀ x ∈ kv.1, x ∈ qs ∧ x ≠ '&') ∧ kv.2 ≠ [] ∧
      ∀ w ∈ kv.2, w ≠ [] ∧ ∀ x ∈ w, x ∈ qs ∧ x ≠ '&' := by
  unfold parse_qs
  apply foldl_addQsEntry_invariant
    (fun k => ¬ '=' ∈ k ∧ ∀ x ∈ k, x ∈ qs ∧ x ≠ '&')
    (fun w => w ≠ [] ∧ ∀ x ∈ w, x ∈ qs ∧ x ≠ '&')
  · intro kv hkv
    cases hkv
  · intro nv hnv
    obtain ⟨k, v⟩ := nv
    obtain ⟨hv, hne, hk, hvv⟩ := parse_qsl_facts qs hq1 hq2 k v hnv
    exact ⟨⟨hne, hk⟩, hv, hvv⟩

theorem normalize_core_eq (u : List Char) :
    normalize_core u =
      (urlparseList u).scheme ++ ':' :: '/' :: '/' ::
        (pyReplace ("www.".data) [] (lowerStr (urlparseList u).netloc) ++
         (lowerStr (rstripSlash (urlparseList u).path) ++
          qtailOf (urlparseList u).query)) := by
  simp only [normalize_core, qtailOf, qpOf]
  by_cases hqp : ((parse_qs (urlparseList u).query).foldl
      (fun d kv => updAssoc d (lowerStr kv.1) (lowerStr (kv.2.headD []))) []).isEmpty = true
  · rw [if_pos hqp, if_pos hqp]
    simp [List.append_assoc]
  · rw [if_neg hqp, if_neg hqp]
    simp [List.append_assoc]

theorem updAssoc_invariant (P Q : List Char → Prop)
    (d : List (List Char × List Char)) (k v : List Char)
    (hd : ∀ kv ∈ d, P kv.1 ∧ Q kv.2) (hk : P k) (hv : Q v) :
    ∀ kv ∈ updAssoc d k v, P kv.1 ∧ Q kv.2 := by
  intro kv hkv
  unfold updAssoc at hkv
  by_cases hex : d.any (fun kv => kv.1 == k) = true
  · rw [if_pos hex] at hkv
    obtain ⟨kv0, hkv0, he⟩ := List.mem_map.mp hkv
    by_cases hk0 : (kv0.1 == k) = true
    · rw [if_pos hk0] at he
      rw [← he]
      exact ⟨hk, hv⟩
    · rw [if_neg hk0] at he
      rw [← he]
      exact hd kv0 hkv0
  · rw [if_neg hex] at hkv
    rcases List.mem_append.mp hkv with h1 | h2
    · exact hd kv h1
    · rw [List.mem_singleton.mp h2]
      exact ⟨hk, hv⟩

theorem foldl_updAssoc_lower_invariant (P Q : List Char → Prop)
    (src : List (List Char × List (List Char))) (acc : List (List Char × List Char))
    (hacc : ∀ kv ∈ acc, P kv.1 ∧ Q kv.2)
    (hsrc : ∀ kv ∈ src, P (lowerStr kv.1) ∧ Q (lowerStr (kv.2.headD []))) :
    ∀ kv ∈ src.foldl (fun d kv => updAssoc d (lowerStr kv.1) (lowerStr (kv.2.headD []))) acc,
      P kv.1 ∧ Q kv.2 := by
  induction src generalizing acc with
  | nil => exact hacc
  | cons kv0 rest ih =>
    intro kv hkv
    refine ih _ ?_ (fun x hx => hsrc x (List.mem_cons_of_mem _ hx)) kv hkv
    exact updAssoc_invariant P Q acc _ _ hacc
      (hsrc kv0 (List.mem_cons_self _ _)).1 (hsrc kv0 (List.mem_cons_self _ _)).2

theorem updAssoc_keys_nodup (d : List (List Char × List Char)) (k v : List Char)
    (h : (d.map Prod.fst).Nodup) : ((updAssoc d k v).map Prod.fst).Nodup := by
  unfold updAssoc
  by_cases hex : d.any (fun kv => kv.1 == k) = true
  · rw [if_pos hex]
    have hmm : (d.map (fun kv => if kv.1 == k then (k, v) else kv)).map Prod.fst =
        d.map Prod.fst := by
      rw [List.map_map]
      apply List.map_congr_left
      intro kv _
      by_cases hk0 : (kv.1 == k) = true
      · simp only [Function.comp, if_pos hk0]
        exact (beq_iff_eq.mp hk0).symm
      · simp only [Function.comp, if_neg hk0]
    rw [hmm]
    exact h
  · rw [if_neg hex]
    rw [List.map_append]
    rw [List.nodup_append]
    refine ⟨h, List.nodup_singleton _, ?_⟩
    have hk_nm : ¬ k ∈ d.map Prod.fst := by
      intro hx
      obtain ⟨kv0, hkv0, he⟩ := List.mem_map.mp hx
      have hany : d.any (fun kv => kv.1 == k) = true :=
        List.any_eq_true.mpr ⟨kv0, hkv0, by rw [he]; exact beq_self_eq_true k⟩
      exact hex hany
    intro x hx hx2
    simp only [List.map_singleton, List.mem_singleton] at hx2
    rw [hx2] at hx
    exact hk_nm hx

theorem foldl_updAssoc_keys_nodup (src : List (List Char × List (List Char)))
    (acc : List (List Char × List Char)) (h : (acc.map Prod.fst).Nodup) :
    ((src.foldl (fun d kv => updAssoc d (lowerStr kv.1) (lowerStr (kv.2.headD []))) acc).map
      Prod.fst).Nodup := by
  induction src generalizing acc with
  | nil => exact h
  | cons kv0 rest ih => exact ih _ (updAssoc_keys_nodup acc _ _ h)

theorem qpOf_keys_nodup (q : List Char) : ((qpOf q).map Prod.fst).Nodup :=
  foldl_updAssoc_keys_nodup _ [] List.nodup_nil

/-! ### C6 support: the query round-trip -/

theorem filterMap_eq_self_of_some {α} (l : List α) (f : α → Option α)
    (h : ∀ x ∈ l, f x = some x) : l.filterMap f = l := by
  induction l with
  | nil => rfl
  | cons a t ih =>
    rw [List.filterMap_cons, h a (List.mem_cons_self _ _),
      ih (fun x hx => h x (List.mem_cons_of_mem _ hx))]

theorem parse_qsl_joinQueryPairs (pairs : List (List Char × List Char))
    (hne : pairs ≠ [])
    (hfk : ∀ kv ∈ pairs, ¬ '&' ∈ kv.1 ∧ ¬ '=' ∈ kv.1 ∧ ¬ '%' ∈ kv.1 ∧ ¬ '+' ∈ kv.1)
    (hfv : ∀ kv ∈ pairs, kv.2 ≠ [] ∧ ¬ '&' ∈ kv.2 ∧ ¬ '%' ∈ kv.2 ∧ ¬ '+' ∈ kv.2) :
    parse_qsl (joinQueryPairs pairs) = pairs := by
  unfold parse_qsl joinQueryPairs
  rw [splitAllChar_joinChar '&' _ (by simpa using hne) ?hamp]
  case hamp =>
    intro f hf
    obtain ⟨kv, hkv, he⟩ := List.mem_map.mp hf
    rw [← he]
    intro hm
    rcases List.mem_append.mp hm with h1 | h2
    · exact (hfk kv hkv).1 h1
    · rcases List.mem_cons.mp h2 with he2 | h3
      · cases he2
      · exact (hfv kv hkv).2.1 h3
  rw [List.filterMap_map]
  apply filterMap_eq_self_of_some
  intro kv hkv
  obtain ⟨k, v⟩ := kv
  have hk := hfk (k, v) hkv
  have hv := hfv (k, v) hkv
  show (if k ++ '=' :: v = [] then none
    else
      match splitFirstChar '=' (k ++ '=' :: v) with
      | none => none
      | some (n, v2) => if v2 = [] then none
        else some (unquote_plus n, unquote_plus v2)) = some (k, v)
  have hfne : ¬ (k ++ '=' :: v) = [] := by
    intro he
    rcases List.append_eq_nil.mp he with ⟨_, h2⟩
    cases h2
  rw [if_neg hfne, splitFirstChar_append '=' k v hk.2.1]
  dsimp only
  rw [if_neg hv.1, unquote_plus_id k hk.2.2.1 hk.2.2.2,
    unquote_plus_id v hv.2.2.1 hv.2.2.2]

theorem foldl_addQsEntry_fresh (pairs : List (List Char × List Char))
    (acc : List (List Char × List (List Char)))
    (hdisj : ∀ kv ∈ pairs, ∀ kv2 ∈ acc, ¬ kv2.1 = kv.1)
    (hnd : (pairs.map Prod.fst).Nodup) :
    pairs.foldl (fun d nv => addQsEntry d nv.1 nv.2) acc =
      acc ++ pairs.map (fun kv => (kv.1, [kv.2])) := by
  induction pairs generalizing acc with
  | nil => simp
  | cons kv rest ih =>
    simp only [List.map_cons, List.nodup_cons] at hnd
    obtain ⟨hnd1, hnd2⟩ := hnd
    have hstep : addQsEntry acc kv.1 kv.2 = acc ++ [(kv.1, [kv.2])] := by
      unfold addQsEntry
      rw [if_neg]
      intro hany
      obtain ⟨kv2, hkv2, he⟩ := List.any_eq_true.mp hany
      exact hdisj kv (List.mem_cons_self _ _) kv2 hkv2 (beq_iff_eq.mp he)
    rw [List.foldl_cons, hstep, ih (acc ++ [(kv.1, [kv.2])]) ?hd hnd2]
    · rw [List.map_cons, List.append_assoc, List.singleton_append]
    case hd =>
      intro kv3 hkv3 kv2 hkv2
      rcases List.mem_append.mp hkv2 with h1 | h2
      · exact hdisj kv3 (List.mem_cons_of_mem _ hkv3) kv2 h1
      · rw [List.mem_singleton.mp h2]
        intro he
        have hm : kv3.1 ∈ rest.map Prod.fst := List.mem_map.mpr ⟨kv3, hkv3, rfl⟩
        rw [← he] at hm
        exact hnd1 hm

theorem foldl_updAssoc_lower_map (pairs : List (List Char × List Char))
    (acc : List (List Char × List Char))
    (h : ∀ kv ∈ pairs, lowerStr kv.1 = kv.1 ∧ lowerStr kv.2 = kv.2)
    (hdisj : ∀ kv ∈ pairs, ∀ kv2 ∈ acc, ¬ kv2.1 = kv.1)
    (hnd : (pairs.map Prod.fst).Nodup) :
    (pairs.map (fun kv => (kv.1, [kv.2]))).foldl
      (fun d kv => updAssoc d (lowerStr kv.1) (lowerStr (kv.2.headD []))) acc =
      acc ++ pairs := by
  induction pairs generalizing acc with
  | nil => simp
  | cons kv rest ih =>
    simp only [List.map_cons, List.nodup_cons] at hnd
    obtain ⟨hnd1, hnd2⟩ := hnd
    rw [List.map_cons, List.foldl_cons]
    have hred : updAssoc acc (lowerStr (kv.1, [kv.2]).1)
        (lowerStr ((kv.1, [kv.2]).2.headD [])) = acc ++ [kv] := by
      dsimp only [List.headD]
      rw [(h kv (List.mem_cons_self _ _)).1, (h kv (List.mem_cons_self _ _)).2]
      unfold updAssoc
      rw [if_neg]
      intro hany
      obtain ⟨kv2, hkv2, he⟩ := List.any_eq_true.mp hany
      exact hdisj kv (List.mem_cons_self _ _) kv2 hkv2 (beq_iff_eq.mp he)
    rw [hred, ih (acc ++ [kv]) (fun x hx => h x (List.mem_cons_of_mem _ hx)) ?hd hnd2]
    · rw [List.append_assoc, List.singleton_append]
    case hd =>
      intro kv3 hkv3 kv2 hkv2
      rcases List.mem_append.mp hkv2 with h1 | h2
      · exact hdisj kv3 (List.mem_cons_of_mem _ hkv3) kv2 h1
      · rw [List.mem_singleton.mp h2]
        intro he
        have hm : kv3.1 ∈ rest.map Prod.fst := List.mem_map.mpr ⟨kv3, hkv3, rfl⟩
        rw [← he] at hm
        exact hnd1 hm

theorem qpOf_joinQueryPairs (pairs : List (List Char × List Char))
    (hne : pairs ≠ [])
    (hfk : ∀ kv ∈ pairs, ¬ '&' ∈ kv.1 ∧ ¬ '=' ∈ kv.1 ∧ ¬ '%' ∈ kv.1 ∧ ¬ '+' ∈ kv.1 ∧
      lowerStr kv.1 = kv.1)
    (hfv : ∀ kv ∈ pairs, kv.2 ≠ [] ∧ ¬ '&' ∈ kv.2 ∧ ¬ '%' ∈ kv.2 ∧ ¬ '+' ∈ kv.2 ∧
      lowerStr kv.2 = kv.2)
    (hnd : (pairs.map Prod.fst).Nodup) :
    qpOf (joinQueryPairs pairs) = pairs := by
  unfold qpOf parse_qs
  rw [parse_qsl_joinQueryPairs pairs hne
    (fun kv hkv => ⟨(hfk kv hkv).1, (hfk kv hkv).2.1, (hfk kv hkv).2.2.1,
      (hfk kv hkv).2.2.2.1⟩)
    (fun kv hkv => ⟨(hfv kv hkv).1, (hfv kv hkv).2.1, (hfv kv hkv).2.2.1,
      (hfv kv hkv).2.2.2.1⟩)]
  rw [foldl_addQsEntry_fresh pairs [] (fun kv _ kv2 h2 => absurd h2 (by simp)) hnd]
  rw [List.nil_append]
  rw [foldl_updAssoc_lower_map pairs []
    (fun kv hkv => ⟨(hfk kv hkv).2.2.2.2, (hfv kv hkv).2.2.2.2⟩)
    (fun kv _ kv2 h2 => absurd h2 (by simp)) hnd]
  rw [List.nil_append]

/-! ### C6 support: facts about the normalized query dictionary -/

theorem mem_pyReplace_nilrep (pat l : List Char) (x : Char)
    (h : x ∈ pyReplace pat [] l) : x ∈ l :=
  mem_replaceFuel_nilrep pat l.length l x h

theorem pyReplace_id_of_not_contains (pat l : List Char)
    (h : containsSub pat l = false) : pyReplace pat [] l = l :=
  replaceFuel_id_of_not_contains pat l.length l h

theorem delim_false_of_lower (a c : Char)
    (hprop : (a == '/' || a == '?' || a == '#') = false)
    (hae : lowerChar a = c) :
    (c == '/' || c == '?' || c == '#') = false := by
  cases hcc : (c == '/' || c == '?' || c == '#') with
  | false => rfl
  | true =>
    exfalso
    rw [Bool.or_eq_true, Bool.or_eq_true] at hcc
    rcases hcc with (hcx | hcx) | hcx <;> rw [beq_iff_eq] at hcx <;> subst hcx <;>
      rw [lowerChar_eq_low _ a (by decide) hae] at hprop <;> simp at hprop

theorem headD_mem (l : List Char) (w : List (List Char)) (h : w ≠ []) :
    w.headD l ∈ w := by
  cases w with
  | nil => exact absurd rfl h
  | cons a t => exact List.mem_cons_self a t

theorem qpOf_facts (q : List Char) (hq1 : ¬ '%' ∈ q) (hq2 : ¬ '+' ∈ q)
    (hq3 : ¬ '#' ∈ q) :
    ∀ kv ∈ qpOf q,
      (¬ '&' ∈ kv.1 ∧ ¬ '=' ∈ kv.1 ∧ ¬ '%' ∈ kv.1 ∧ ¬ '+' ∈ kv.1 ∧ ¬ '#' ∈ kv.1 ∧
        lowerStr kv.1 = kv.1) ∧
      (kv.2 ≠ [] ∧ ¬ '&' ∈ kv.2 ∧ ¬ '%' ∈ kv.2 ∧ ¬ '+' ∈ kv.2 ∧ ¬ '#' ∈ kv.2 ∧
        lowerStr kv.2 = kv.2) := by
  unfold qpOf
  apply foldl_updAssoc_lower_invariant
    (fun k => ¬ '&' ∈ k ∧ ¬ '=' ∈ k ∧ ¬ '%' ∈ k ∧ ¬ '+' ∈ k ∧ ¬ '#' ∈ k ∧
      lowerStr k = k)
    (fun v => v ≠ [] ∧ ¬ '&' ∈ v ∧ ¬ '%' ∈ v ∧ ¬ '+' ∈ v ∧ ¬ '#' ∈ v ∧
      lowerStr v = v)
  · intro kv hkv
    cases hkv
  · intro kv hkv
    obtain ⟨⟨hne, hk⟩, hvne, hvv⟩ := parse_qs_facts q hq1 hq2 kv hkv
    constructor
    · refine ⟨?_, ?_, ?_, ?_, ?_, lowerStr_idem _⟩
      · exact not_mem_lowerStr '&' kv.1 (by decide) (fun hm => (hk '&' hm).2 rfl)
      · exact not_mem_lowerStr '=' kv.1 (by decide) (fun hm => hne hm)
      · exact not_mem_lowerStr '%' kv.1 (by decide) (fun hm => hq1 (hk '%' hm).1)
      · exact not_mem_lowerStr '+' kv.1 (by decide) (fun hm => hq2 (hk '+' hm).1)
      · exact not_mem_lowerStr '#' kv.1 (by decide) (fun hm => hq3 (hk '#' hm).1)
    · have hw : kv.2.headD [] ∈ kv.2 := headD_mem [] kv.2 hvne
      obtain ⟨hwne, hwv⟩ := hvv (kv.2.headD []) hw
      refine ⟨?_, ?_, ?_, ?_, ?_, lowerStr_idem _⟩
      · intro he
        simp only [lowerStr, List.map_eq_nil] at he
        exact hwne he
      · exact not_mem_lowerStr '&' _ (by decide) (fun hm => (hwv '&' hm).2 rfl)
      · exact not_mem_lowerStr '%' _ (by decide) (fun hm => hq1 (hwv '%' hm).1)
      · exact not_mem_lowerStr '+' _ (by decide) (fun hm => hq2 (hwv '+' hm).1)
      · exact not_mem_lowerStr '#' _ (by decide) (fun hm => hq3 (hwv '#' hm).1)

theorem qtailOf_nil : qtailOf [] = [] := rfl

/-! ### C6: conditional idempotence of the normalization core -/

theorem normalize_core_idem (u : List Char)
    (h1 : (urlparseList u).scheme ≠ [])
    (h2 : (urlparseList u).netloc ≠ [])
    (h3 : containsSub ("www.".data)
      (pyReplace ("www.".data) [] (lowerStr (urlparseList u).netloc)) = false)
    (h4 : ¬ ';' ∈ (urlparseList u).path)
    (h5 : ¬ '%' ∈ (urlparseList u).query)
    (h6 : ¬ '+' ∈ (urlparseList u).query) :
    normalize_core (normalize_core u) = normalize_core u := by
  have hsch_eq := urlparseList_scheme u
  rcases extractScheme_fst_facts u with hnil | ⟨hs_ne, hs_low, hs_all, hs_head⟩
  · rw [hsch_eq, hnil] at h1
    exact absurd rfl h1
  rcases urlparseList_netloc_case u with hnl | ⟨rest, hcase⟩
  · exact absurd hnl h2
  have hpf := afterNetloc_facts (extractScheme u).1 (splitnetloc rest)
  rw [← hcase] at hpf
  obtain ⟨hpath_pre, hpath_nq, hpath_nh, hq_nh⟩ := hpf
  have hnet_eq : (urlparseList u).netloc = (splitnetloc rest).1 := by
    rw [hcase, afterNetloc_netloc]
  have hd_prop : ∀ c ∈ pyReplace ("www.".data) [] (lowerStr (urlparseList u).netloc),
      (c == '/' || c == '?' || c == '#') = false := by
    intro c hc
    obtain ⟨a, ham, hae⟩ := List.mem_map.mp (mem_pyReplace_nilrep _ _ c hc)
    refine delim_false_of_lower a c ?_ hae
    rw [hnet_eq] at ham
    exact splitnetloc_fst_prop rest a ham
  have hd_low : lowerStr (pyReplace ("www.".data) [] (lowerStr (urlparseList u).netloc)) =
      pyReplace ("www.".data) [] (lowerStr (urlparseList u).netloc) :=
    lowerStr_eq_self _
      (fun c hc => lowerChar_of_mem_lowerStr _ c (mem_pyReplace_nilrep _ _ c hc))
  have hp_nq : ¬ '?' ∈ lowerStr (rstripSlash (urlparseList u).path) :=
    not_mem_lowerStr '?' _ (by decide)
      (fun hm => hpath_nq ((rstripSlash_pre _).subset hm))
  have hp_nh : ¬ '#' ∈ lowerStr (rstripSlash (urlparseList u).path) :=
    not_mem_lowerStr '#' _ (by decide)
      (fun hm => hpath_nh ((rstripSlash_pre _).subset hm))
  have hp_ns : hasChar ';' (lowerStr (rstripSlash (urlparseList u).path)) = false :=
    (hasChar_eq_false_iff ';' _).mpr (not_mem_lowerStr ';' _ (by decide)
      (fun hm => h4 ((rstripSlash_pre _).subset hm)))
  have hp_head : lowerStr (rstripSlash (urlparseList u).path) = [] ∨
      ∃ t, lowerStr (rstripSlash (urlparseList u).path) = '/' :: t := by
    rcases splitnetloc_snd_shape rest with hz | ⟨c, t, hz, hcdel⟩
    · left
      have hp0 : (urlparseList u).path = [] := by
        rw [hz] at hpath_pre
        exact List.prefix_nil.mp hpath_pre
      rw [hp0]
      rfl
    · rw [hz] at hpath_pre
      rcases prefix_head c (urlparseList u).path t hpath_pre with hpe | ⟨t2, hpe⟩
      · left
        rw [hpe]
        rfl
      · rw [Bool.or_eq_true, Bool.or_eq_true] at hcdel
        rcases hcdel with (hcx | hcx) | hcx <;> rw [beq_iff_eq] at hcx <;> subst hcx
        · rcases prefix_head '/' (rstripSlash (urlparseList u).path) t2
              (by rw [← hpe]; exact rstripSlash_pre _) with hre | ⟨t3, hre⟩
          · left
            rw [hre]
            rfl
          · right
            refine ⟨lowerStr t3, ?_⟩
            rw [hre]
            show lowerChar '/' :: lowerStr t3 = '/' :: lowerStr t3
            rw [lowerChar_of_not_upper '/' (by decide)]
        · exact absurd (by rw [hpe]; exact List.mem_cons_self _ _) hpath_nq
        · exact absurd (by rw [hpe]; exact List.mem_cons_self _ _) hpath_nh
  have hrs : rstripSlash (lowerStr (rstripSlash (urlparseList u).path)) =
      lowerStr (rstripSlash (urlparseList u).path) :=
    rstripSlash_lower_stable _
  have hp_low : lowerStr (lowerStr (rstripSlash (urlparseList u).path)) =
      lowerStr (rstripSlash (urlparseList u).path) := lowerStr_idem _
  rw [normalize_core_eq u, hsch_eq]
  by_cases hqe : (qpOf (urlparseList u).query).isEmpty = true
  · have hqt : qtailOf (urlparseList u).query = [] := by
      unfold qtailOf
      rw [if_pos hqe]
    rw [hqt, List.append_nil]
    rw [normalize_core_eq]
    rw [urlparseList_reconstruct_noq (extractScheme u).1 _ _
      hs_ne hs_head hs_all hs_low hd_prop hp_head hp_nq hp_nh hp_ns]
    dsimp only
    rw [hd_low, pyReplace_id_of_not_contains _ _ h3, hrs, hp_low, qtailOf_nil,
      List.append_nil]
  · have hqt : qtailOf (urlparseList u).query =
        '?' :: joinQueryPairs (insertionSort pairLe (qpOf (urlparseList u).query)) := by
      unfold qtailOf
      rw [if_neg hqe]
    have hqpf := qpOf_facts (urlparseList u).query h5 h6 hq_nh
    have hpairs_facts : ∀ kv ∈ insertionSort pairLe (qpOf (urlparseList u).query),
        (¬ '&' ∈ kv.1 ∧ ¬ '=' ∈ kv.1 ∧ ¬ '%' ∈ kv.1 ∧ ¬ '+' ∈ kv.1 ∧ ¬ '#' ∈ kv.1 ∧
          lowerStr kv.1 = kv.1) ∧
        (kv.2 ≠ [] ∧ ¬ '&' ∈ kv.2 ∧ ¬ '%' ∈ kv.2 ∧ ¬ '+' ∈ kv.2 ∧ ¬ '#' ∈ kv.2 ∧
          lowerStr kv.2 = kv.2) :=
      fun kv hkv => hqpf kv ((mem_insertionSort pairLe kv _).mp hkv)
    have hnd_pairs : ((insertionSort pairLe (qpOf (urlparseList u).query)).map
        Prod.fst).Nodup :=
      (((insertionSort_perm pairLe _).map Prod.fst).nodup_iff).mpr (qpOf_keys_nodup _)
    have hpairs_ne : insertionSort pairLe (qpOf (urlparseList u).query) ≠ [] := by
      intro he
      have hlen := (insertionSort_perm pairLe (qpOf (urlparseList u).query)).length_eq
      rw [he] at hlen
      cases hqp0 : qpOf (urlparseList u).query with
      | nil => rw [hqp0] at hqe; exact hqe rfl
      | cons a t =>
        rw [hqp0] at hlen
        cases hlen
    have hJ_nh : ¬ '#' ∈ joinQueryPairs (insertionSort pairLe
        (qpOf (urlparseList u).query)) := by
      intro hm
      unfold joinQueryPairs at hm
      rcases mem_joinChar '&' _ '#' hm with he | ⟨f, hf, hxf⟩
      · cases he
      · obtain ⟨kv, hkv, hfe⟩ := List.mem_map.mp hf
        rw [← hfe] at hxf
        obtain ⟨hkf, hvf⟩ := hpairs_facts kv hkv
        rcases List.mem_append.mp hxf with hk | hv
        · exact hkf.2.2.2.2.1 hk
        · rcases List.mem_cons.mp hv with he2 | hv2
          · cases he2
          · exact hvf.2.2.2.2.1 hv2
    rw [hqt]
    rw [normalize_core_eq]
    rw [urlparseList_reconstruct_withq (extractScheme u).1 _ _ _
      hs_ne hs_head hs_all hs_low hd_prop hp_head hp_nq hp_nh hp_ns hJ_nh]
    dsimp only
    rw [hd_low, pyReplace_id_of_not_contains _ _ h3, hrs, hp_low]
    have hqpJ : qpOf (joinQueryPairs (insertionSort pairLe
        (qpOf (urlparseList u).query))) =
        insertionSort pairLe (qpOf (urlparseList u).query) :=
      qpOf_joinQueryPairs _ hpairs_ne
        (fun kv hkv => ⟨(hpairs_facts kv hkv).1.1, (hpairs_facts kv hkv).1.2.1,
          (hpairs_facts kv hkv).1.2.2.1, (hpairs_facts kv hkv).1.2.2.2.1,
          (hpairs_facts kv hkv).1.2.2.2.2.2⟩)
        (fun kv hkv => ⟨(hpairs_facts kv hkv).2.1, (hpairs_facts kv hkv).2.2.1,
          (hpairs_facts kv hkv).2.2.2.1, (hpairs_facts kv hkv).2.2.2.2.1,
          (hpairs_facts kv hkv).2.2.2.2.2.2⟩)
        hnd_pairs
    have hqtJ : qtailOf (joinQueryPairs (insertionSort pairLe
        (qpOf (urlparseList u).query))) =
        '?' :: joinQueryPairs (insertionSort pairLe (qpOf (urlparseList u).query)) := by
      unfold qtailOf
      rw [hqpJ]
      have hne2 : ¬ (insertionSort pairLe (qpOf (urlparseList u).query)).isEmpty = true := by
        intro hie
        apply hpairs_ne
        cases hl : insertionSort pairLe (qpOf (urlparseList u).query) with
        | nil => rfl
        | cons a tl =>
          rw [hl] at hie
          cases hie
      rw [if_neg hne2]
      rw [insertionSort_eq_self pairLe _
        (insertionSort_pairwise pairLe pairLe_total pairLe_trans _)]
    rw [hqtJ]

/-! ## Claim theorems -/

/-- Claim C9: `is_similar_url` is not reflexive — on the URL
`http://x.com` (same host, empty path, no query parameters) it returns
`False` even though both arguments are the identical string: the locale rule
does not match an empty path, the path-similarity rule is guarded by both
paths being non-empty, and the query-variation rule requires one of the six
variation keys to be present. -/
theorem claim_C9_is_similar_url_not_reflexive :
    is_similar_url ("http://x.com") ("http://x.com") 4 5 = false := by
  decide

/-- Claim C7: `is_similar_url` is symmetric — not only for the
query-variation and locale-variant rules but for the whole decision,
including the positional fallback similarity — and two URLs whose hosts
differ case-insensitively are never similar. -/
theorem claim_C7_is_similar_url_symm_and_host :
    (∀ (a b : String) (thNum thDen : Nat),
      is_similar_url a b thNum thDen = is_similar_url b a thNum thDen) ∧
    (∀ (a b : String) (thNum thDen : Nat),
      lowerStr (urlparse a).netloc ≠ lowerStr (urlparse b).netloc →
      is_similar_url a b thNum thDen = false) := by
  constructor
  · intro a b thNum thDen
    exact is_similar_core_comm a.data b.data thNum thDen
  · intro a b thNum thDen h
    unfold is_similar_url is_similar_core
    simp only [urlparse] at h
    simp [h]

/-- Claim C8: every string returned by `extract_parent_domains` has at least
two dot-separated labels, and is derived from some input domain as a proper
label-suffix (labels dropped from the front), in particular it is never equal
to the domain it was derived from. -/
theorem claim_C8_extract_parent_domains_proper :
    ∀ (domains : List String) (p : String), p ∈ extract_parent_domains domains →
      2 ≤ (splitAllChar '.' p.data).length ∧
      ∃ d ∈ domains, p ≠ d ∧ ∃ i, 1 ≤ i ∧
        p.data = joinChar '.' ((splitAllChar '.' d.data).drop i) := by
  intro domains p hp
  unfold extract_parent_domains at hp
  rw [mem_insertionSort] at hp
  rcases mem_outer_fold domains [] p hp with h1 | h1
  · simp at h1
  · rcases h1 with ⟨d, hd, i, hi, hne, hlen, heq⟩
    exact ⟨hlen, d, hd, hne, i, hi, heq⟩

/-- Witness for C8 at a concrete input: `cdn.redditmedia.com` is among the
parents of `img.cdn.redditmedia.com`, has two or more labels, and differs
from the input domain. -/
theorem claim_C8_witness :
    ("cdn.redditmedia.com" : String) ∈ extract_parent_domains ["img.cdn.redditmedia.com"] ∧
    2 ≤ (splitAllChar '.' ("cdn.redditmedia.com" : String).data).length ∧
    ∃ d ∈ (["img.cdn.redditmedia.com"] : List String),
      ("cdn.redditmedia.com" : String) ≠ d ∧ ∃ i, 1 ≤ i ∧
        ("cdn.redditmedia.com" : String).data =
          joinChar '.' ((splitAllChar '.' d.data).drop i) := by
  refine ⟨by decide, ?_⟩
  exact claim_C8_extract_parent_domains_proper ["img.cdn.redditmedia.com"]
    ("cdn.redditmedia.com") (by decide)

/-- Claim C10: every domain returned by `load_existing_domains` is fully
lowercase (a fixed point of lowercasing) and matches
`^[a-zA-Z0-9.-]+\.[a-zA-Z]{2,}$`, for every input file content. -/
theorem claim_C10_load_existing_domains_lowercase_valid :
    ∀ (lines : List String) (d : String), d ∈ load_existing_domains lines →
      d.data = lowerStr d.data ∧ matchesDomainRegex d.data = true := by
  intro lines d hd
  unfold load_existing_domains at hd
  rcases mem_load_fold lines [] d hd with h | h
  · simp at h
  · rcases h with ⟨d0, hm, rfl⟩
    exact ⟨(lowerStr_idem d0).symm, matchesDomainRegex_lowerStr d0 hm⟩

/-- Witness for C10 at a concrete file content. -/
theorem claim_C10_witness :
    ("a.example.com" : String) ∈ load_existing_domains ["A.Example.COM", "# note"] ∧
    ("a.example.com" : String).data = lowerStr ("a.example.com" : String).data ∧
    matchesDomainRegex ("a.example.com" : String).data = true := by
  refine ⟨by decide, ?_⟩
  exact claim_C10_load_existing_domains_lowercase_valid
    ["A.Example.COM", "# note"] ("a.example.com") (by decide)

/-- Counterexample to claim C5 as stated: with `max_retries = 3` and a
resolver for which every attempt raises a non-definitive error — the `A`
lookup fails definitively (`NXDOMAIN`) and the `AAAA` lookup then raises a
timeout-class error — `validate_domain_dns_with_retry` does not return
`True`: the `AAAA` error is raised inside the `except (NXDOMAIN, NoAnswer)`
handler, no sibling handler catches it, and it propagates to the caller. -/
theorem claim_C5_counterexample :
    validate_domain_dns_with_retry (fun _ => ⟨.nxdomain, .otherErr⟩) 3 ≠ .ok true ∧
    validate_domain_dns_with_retry (fun _ => ⟨.nxdomain, .otherErr⟩) 3 = .error () := by
  have h : validate_domain_dns_with_retry (fun _ => ⟨.nxdomain, .otherErr⟩) 3 = .error () := rfl
  exact ⟨fun hc => by rw [h] at hc; exact Except.noConfusion hc, h⟩

/-- Claim C5 (amended): if on every attempt the `A` lookup itself raises a
non-definitive resolver error, the validator returns `True` (conservative
keep); but when the non-definitive error occurs on the `AAAA` lookup after a
definitive `A` failure, the error propagates to the caller as an exception
instead of any return value. -/
theorem claim_C5_amended_conservative_keep :
    (∀ (oracle : Nat → DnsAttempt) (max_retries : Nat), 0 < max_retries →
      (∀ i, i < max_retries → (oracle i).a = .otherErr) →
      validate_domain_dns_with_retry oracle max_retries = .ok true) ∧
    (∀ (oracle : Nat → DnsAttempt) (max_retries : Nat), 0 < max_retries →
      ((oracle 0).a = .nxdomain ∨ (oracle 0).a = .noAnswer) →
      (oracle 0).aaaa = .otherErr →
      validate_domain_dns_with_retry oracle max_retries = .error ()) := by
  constructor
  · intro oracle max_retries hm hall
    exact validate_loop_all_otherErr oracle max_retries 0 hm
      (fun i h1 h2 => hall i (by omega))
  · intro oracle max_retries hm ha haaaa
    obtain ⟨r, rfl⟩ : ∃ r, max_retries = r + 1 := ⟨max_retries - 1, by omega⟩
    unfold validate_domain_dns_with_retry validate_loop
    rcases ha with h | h <;> rw [h, haaaa]

/-- Witness for the amended C5 at concrete resolvers. -/
theorem claim_C5_witness :
    validate_domain_dns_with_retry (fun _ => ⟨.otherErr, .success⟩) 3 = .ok true ∧
    validate_domain_dns_with_retry (fun _ => ⟨.noAnswer, .otherErr⟩) 2 = .error () := by
  constructor
  · exact claim_C5_amended_conservative_keep.1 (fun _ => ⟨.otherErr, .success⟩) 3
      (by decide) (fun i _ => rfl)
  · exact claim_C5_amended_conservative_keep.2 (fun _ => ⟨.noAnswer, .otherErr⟩) 2
      (by decide) (Or.inr rfl) rfl

/-- Claim C1: in both output modes, the content written by the reconciler is
a header block followed by exactly the set
`(existingDomains − deadDomains) ∪ newDomains`, one domain per line, sorted
(Python string order) and duplicate-free. -/
theorem claim_C1_reconciler_writes_final_set :
    ∀ (args : ReconArgs) (current_time : String) (input_urls : Option (List String))
      (backup_file : Option String) (new_domains existing_domains dead_domains : List String),
      ∃ hdr : List String,
        update_output_content args current_time input_urls backup_file
            new_domains existing_domains dead_domains =
          hdr ++ pySortedSet (setDedup (setUnion (setDiff existing_domains dead_domains)
            new_domains)) ∧
        List.Pairwise (fun a b => strLeS a b = true)
          (pySortedSet (setDedup (setUnion (setDiff existing_domains dead_domains)
            new_domains))) ∧
        (pySortedSet (setDedup (setUnion (setDiff existing_domains dead_domains)
          new_domains))).Nodup ∧
        ∀ d, d ∈ pySortedSet (setDedup (setUnion (setDiff existing_domains dead_domains)
            new_domains)) ↔
          ((d ∈ existing_domains ∧ ¬ d ∈ dead_domains) ∨ d ∈ new_domains) := by
  intro args current_time input_urls backup_file new_domains existing_domains dead_domains
  have htot : ∀ x y : String, strLeS x y = true ∨ strLeS y x = true := strLeS_total
  set X := setDedup (setUnion (setDiff existing_domains dead_domains) new_domains) with hX
  have hsorted : List.Pairwise (fun a b => strLeS a b = true) (pySortedSet X) := by
    rw [pySortedSet]
    exact insertionSort_pairwise strLeS htot strLeS_trans (setDedup X)
  have hperm : List.Perm (pySortedSet X) (setDedup X) := by
    rw [pySortedSet]
    exact insertionSort_perm strLeS (setDedup X)
  have hdd := setDedup_spec X
  have hddX := setDedup_spec (setUnion (setDiff existing_domains dead_domains) new_domains)
  have hnodup : (pySortedSet X).Nodup := hperm.nodup_iff.mpr hdd.2
  have hmem : ∀ d, d ∈ pySortedSet X ↔
      ((d ∈ existing_domains ∧ ¬ d ∈ dead_domains) ∨ d ∈ new_domains) := by
    intro d
    rw [hperm.mem_iff, (hdd.1 d), hX, (hddX.1 d), mem_setUnion, mem_setDiff]
  have hex : ∃ hdr, update_output_content args current_time input_urls backup_file
      new_domains existing_domains dead_domains = hdr ++ pySortedSet X := by
    cases hf : args.fqdn_list
    · simp only [update_output_content, hf, Bool.false_eq_true, if_false]
      exact ⟨_, rfl⟩
    · simp only [update_output_content, hf, if_true]
      exact ⟨_, rfl⟩
  rcases hex with ⟨hdr, hh⟩
  exact ⟨hdr, hh, hsorted, hnodup, hmem⟩

/-- Claim C2: if the write to the temporary file fails — whether the open
itself fails or the write stops mid-way — the content at the output path is
unchanged (either it was never touched, or it is restored from the backup
that was taken from it at the start of the same call); with a successful
`os.remove`, the temporary artifact is gone afterwards. -/
theorem claim_C2_write_failure_output_unchanged :
    ∀ (fs : ReconFS) (content part : List String) (backupOk removeOk restoreOk : Bool),
      (update_output_file_incrementally fs content (.failPartial part)
        backupOk removeOk restoreOk).output = fs.output ∧
      (update_output_file_incrementally fs content .openFail
        backupOk removeOk restoreOk).output = fs.output ∧
      (update_output_file_incrementally fs content (.failPartial part)
        backupOk true restoreOk).temp = none := by
  intro fs content part backupOk removeOk restoreOk
  obtain ⟨o, t, b⟩ := fs
  cases o <;> cases backupOk <;> cases removeOk <;> cases restoreOk <;>
    simp [update_output_file_incrementally, create_backup_file, restoreStep]

/-- Counterexample to claim C3 as stated: with `maxPages = 2`, a seed page
linking to `/login` and `/p2`.  Popping the authentication-gated `/login`
URL consumes the second (and last) unit of the visit budget — it is added to
`crawled_urls` *before* the authentication check — so the loop stops and
`/p2` is never visited.  Had `/login` never been popped (same crawl with
only `/p2` linked), `/p2` would have been visited.  So a skipped
authentication-gated URL does count toward `maxPages`. -/
theorem claim_C3_counterexample :
    (crawlIter (fun _ l => l)
      (fun s => if s = "http://ex.com" then NavResult.ok ["http://ex.com/login", "http://ex.com/p2"]
                else NavResult.ok [])
      (crawlBaseDomain "http://ex.com") 2 2 (crawlInit "http://ex.com")).state.crawled_urls =
      ["http://ex.com", "http://ex.com/login"] ∧
    crawlGuard 2 (crawlIter (fun _ l => l)
      (fun s => if s = "http://ex.com" then NavResult.ok ["http://ex.com/login", "http://ex.com/p2"]
                else NavResult.ok [])
      (crawlBaseDomain "http://ex.com") 2 2 (crawlInit "http://ex.com")).state = false ∧
    ¬ ("http://ex.com/p2" ∈ (crawlIter (fun _ l => l)
      (fun s => if s = "http://ex.com" then NavResult.ok ["http://ex.com/login", "http://ex.com/p2"]
                else NavResult.ok [])
      (crawlBaseDomain "http://ex.com") 2 2 (crawlInit "http://ex.com")).state.crawled_urls) ∧
    "http://ex.com/p2" ∈ (crawlIter (fun _ l => l)
      (fun s => if s = "http://ex.com" then NavResult.ok ["http://ex.com/p2"]
                else NavResult.ok [])
      (crawlBaseDomain "http://ex.com") 2 2 (crawlInit "http://ex.com")).state.crawled_urls := by
  refine ⟨by decide, by decide, by decide, by decide⟩

/-- Claim C3 (amended): when the popped URL is new and its lowercased text
contains one of the authentication-gated segments, the iteration performs no
navigation (the result does not consult the page-rendering collaborator) —
but the URL *is* added to the visited set, consuming one unit of the
`maxPages` budget. -/
theorem claim_C3_amended_auth_urls_skipped_but_counted :
    ∀ (urljoin2 : String → String → String) (page : String → NavResult)
      (base_domain : List Char) (st : CrawlState) (url : String) (rest : List String),
      st.urls_to_crawl = url :: rest →
      st.crawled_urls.contains url = false →
      problematicB url = true →
      crawlStep urljoin2 page base_domain st =
        .ok { st with urls_to_crawl := rest,
                      crawled_urls := st.crawled_urls ++ [url] } := by
  intro u p b st url rest hfr hc hp
  have hcm : ¬ url ∈ st.crawled_urls := fun hm => by
    rw [(contains_iff_mem st.crawled_urls url).mpr hm] at hc
    exact Bool.noConfusion hc
  simp only [crawlStep, hfr]
  rw [if_neg (by simpa using hcm), if_pos hp]

/-- Witness for the amended C3 at a concrete state: the gated URL is popped,
recorded as visited, and nothing is navigated. -/
theorem claim_C3_witness :
    crawlStep (fun _ l => l) (fun _ => NavResult.ok []) (("ex.com" : String).data)
        ⟨["http://ex.com/login"], [], [], [], 0, none⟩ =
      .ok ⟨[], ["http://ex.com/login"], [], [], 0, none⟩ := by
  exact claim_C3_amended_auth_urls_skipped_but_counted (fun _ l => l)
    (fun _ => NavResult.ok []) (("ex.com" : String).data)
    ⟨["http://ex.com/login"], [], [], [], 0, none⟩ ("http://ex.com/login") []
    rfl (by decide) (by decide)

/-- Claim C4: for every collaborator behaviour and every seed, the visited
set never exceeds `maxPages` at any point of the crawl; the loop reaches its
final result in finitely many iterations; and at that final result either
the frontier is exhausted or the visited count equals `maxPages` — also in
the abnormal-termination case (the `NameError` crash on a DNS failure before
any page was parsed), which can only happen with an exhausted frontier. -/
theorem claim_C4_crawl_budget_and_termination :
    ∀ (urljoin2 : String → String → String) (page : String → NavResult)
      (start_url : String) (max_pages : Nat),
      (∀ n, (crawlIter urljoin2 page (crawlBaseDomain start_url) max_pages n
          (crawlInit start_url)).state.crawled_urls.length ≤ max_pages) ∧
      (∃ n, crawlIter urljoin2 page (crawlBaseDomain start_url) max_pages n
          (crawlInit start_url) =
        crawl_loop urljoin2 page (crawlBaseDomain start_url) max_pages
          (crawlInit start_url)) ∧
      (match crawl_loop urljoin2 page (crawlBaseDomain start_url) max_pages
          (crawlInit start_url) with
       | .ok s => s.urls_to_crawl = [] ∨ s.crawled_urls.length = max_pages
       | .crash s => s.urls_to_crawl = []) := by
  intro u p start m
  have h0 : (crawlInit start).crawled_urls.length ≤ m := by simp [crawlInit]
  obtain ⟨hterm, hfin⟩ := crawl_loop_master u p (crawlBaseDomain start) m m 1
    (crawlInit start) (by simp [crawlInit]) (by simp [crawlInit]) h0
    (fun _ => by simp [crawlInit])
  exact ⟨fun n => crawlIter_card_le u p _ m n _ h0, hterm, hfin⟩

/-- Witness for C7 at concrete inputs: symmetry at two distinct URLs, and
host mismatch forcing `False`. -/
theorem claim_C7_witness :
    is_similar_url ("http://a.com/x") ("http://a.com/y") 4 5 =
      is_similar_url ("http://a.com/y") ("http://a.com/x") 4 5 ∧
    is_similar_url ("http://a.com") ("http://b.org") 4 5 = false := by
  refine ⟨claim_C7_is_similar_url_symm_and_host.1 ("http://a.com/x") ("http://a.com/y") 4 5, ?_⟩
  exact claim_C7_is_similar_url_symm_and_host.2 ("http://a.com") ("http://b.org") 4 5 (by decide)


/-- Claim C6 (counterexample): `normalize_url` is not idempotent.  On
`http://wwwww.w.x/` the first pass deletes the inner `www.` occurrence and
produces `http://www.x`, whose host again starts with `www.`, so a second
pass strips it once more and yields `http://x`. -/
theorem claim_C6_counterexample :
    normalize_url (normalize_url ("http://wwwww.w.x/")) ≠
      normalize_url ("http://wwwww.w.x/") := by decide

/-- Claim C6 (amended): `normalize_url` is idempotent on every URL whose
parse has a non-empty scheme and netloc, whose normalized host no longer
contains a `www.` occurrence (`str.replace` deletes all occurrences but can
splice new ones together), whose path carries no `;` params marker, and
whose query contains no `%`-escape and no `+`. -/
theorem claim_C6_amended_normalize_idempotent (u : String)
    (h1 : (urlparse u).scheme ≠ [])
    (h2 : (urlparse u).netloc ≠ [])
    (h3 : containsSub ("www.".data)
      (pyReplace ("www.".data) [] (lowerStr (urlparse u).netloc)) = false)
    (h4 : ¬ ';' ∈ (urlparse u).path)
    (h5 : ¬ '%' ∈ (urlparse u).query)
    (h6 : ¬ '+' ∈ (urlparse u).query) :
    normalize_url (normalize_url u) = normalize_url u :=
  congrArg String.mk (normalize_core_idem u.data h1 h2 h3 h4 h5 h6)

/-- Claim C6 witness: the amended idempotence theorem applied to the
concrete URL `https://www.Example.com/Path/?B=2&a=1`. -/
theorem claim_C6_witness :
    (urlparse ("https://www.Example.com/Path/?B=2&a=1")).scheme ≠ [] ∧
    (urlparse ("https://www.Example.com/Path/?B=2&a=1")).netloc ≠ [] ∧
    containsSub ("www.".data) (pyReplace ("www.".data) []
      (lowerStr (urlparse ("https://www.Example.com/Path/?B=2&a=1")).netloc)) = false ∧
    ¬ ';' ∈ (urlparse ("https://www.Example.com/Path/?B=2&a=1")).path ∧
    ¬ '%' ∈ (urlparse ("https://www.Example.com/Path/?B=2&a=1")).query ∧
    ¬ '+' ∈ (urlparse ("https://www.Example.com/Path/?B=2&a=1")).query ∧
    normalize_url (normalize_url ("https://www.Example.com/Path/?B=2&a=1")) =
      normalize_url ("https://www.Example.com/Path/?B=2&a=1") :=
  ⟨by decide, by decide, by decide, by decide, by decide, by decide,
   claim_C6_amended_normalize_idempotent ("https://www.Example.com/Path/?B=2&a=1")
     (by decide) (by decide) (by decide) (by decide) (by decide) (by decide)⟩


end Crawler
